import Mathlib

/-!
# Verification of the goo/okwolo core (state, history, vdom diff engine)

This file gives a shallow embedding of the core algorithms of the
repository and proves the specification's claims about them:

* the bounded undo/redo history layer (modelled from the specification,
  since only its test file is present in the sources);
* the state module's unset-marker discipline and deep-copying reads
  (`src/dist/lite.js`, module 9), with a heap model of
  `JSON.parse(JSON.stringify(...))` to speak about reference freshness;
* the `longestChain` key-ordering heuristic and the child-reordering
  moves of the DOM updater (`src/src/utils.js` lines 240-281,
  `src/dist/lite.js` lines 727-763 and 926-947);
* the shallow attribute `diff`, in both its `src/src/utils.js` form and
  the variant bundled in `src/dist/lite.js`;
* the recursive vdom updater `_update` of `src/dist/lite.js` (lines
  837-948) as a host-operation-emitting function;
* the child-keying loop of `build` (`src/dist/lite.js` lines 672-696).
-/

/-! ## History layer (state.handler.history)

The history module's implementation is not among the source files; only
its test (`src/test/modules/state.handler.history.js`) is.  The model
below is written from the specification, section 4.4 and section 3
("History record"), and its capacity-boundary example in section 8.
-/

/-- A small value type for states appearing in the history examples:
`null`, numbers and strings. -/
inductive HVal where
  | null : HVal
  | num (n : Int) : HVal
  | str (s : String) : HVal
  deriving DecidableEq, Repr

/-- Modelled from the spec: the History Layer's record (spec section 3),
`past` and `future` stacks around the current state.  `past` is kept
oldest-first (JS `push`/`pop` operate at the end, `shift` evicts at the
front). -/
structure HApp (V : Type) where
  current : V
  past : List V
  future : List V
  deriving DecidableEq, Repr

/-- Modelled from the spec: a state-changing dispatch that is not
`UNDO`/`REDO`/reset and has no silent marker (spec section 4.4): before
committing the new state, the pre-transition state is pushed onto
`past` and `future` is cleared.  The capacity check evicts the oldest
entry on a push that finds `past` already above capacity, which is the
boundary behaviour fixed by the spec's own section 8 example (21
recoverable states with capacity 20, "store at least 20 past states"). -/
def hSet {V : Type} (cap : Nat) (a : HApp V) (v : V) : HApp V :=
  let past0 := if a.past.length > cap then a.past.tail else a.past
  { current := v, past := past0 ++ [a.current], future := [] }

/-- Modelled from the spec: `UNDO` (spec section 4.4): if `past` is
empty, no-op; otherwise pop the most recent entry from `past`, push the
current state onto `future`, and make the popped entry current. -/
def hUndo {V : Type} (a : HApp V) : HApp V :=
  match a.past.getLast? with
  | none => a
  | some p => { current := p, past := a.past.dropLast, future := a.future ++ [a.current] }

/-- Modelled from the spec: `REDO`, symmetric to `UNDO` using
`future`/`past`. -/
def hRedo {V : Type} (a : HApp V) : HApp V :=
  match a.future.getLast? with
  | none => a
  | some f => { current := f, past := a.past ++ [a.current], future := a.future.dropLast }

/-- The app of the capacity-boundary example: initial state `null`. -/
def histStart : HApp HVal := { current := HVal.null, past := [], future := [] }

/-- The example app after dispatching 21 state changes (values 0..20)
at the default capacity of 20. -/
def histAfterSets : HApp HVal :=
  (List.range 21).foldl (fun a i => hSet 20 a (HVal.num (Int.ofNat i))) histStart

/-- The example app after then issuing 21 `undo()` calls. -/
def histAfterUndos : HApp HVal :=
  (List.range 21).foldl (fun a _ => hUndo a) histAfterSets

set_option maxRecDepth 100000 in
/-- C5: with the History Layer at its default capacity of 20, starting
from initial state `null` and dispatching 21 state changes, 21 `undo()`
calls reach state `null`, and one further `undo()` leaves the app
unchanged at `null`. -/
theorem history_capacity_boundary :
    histAfterUndos.current = HVal.null ∧
    hUndo histAfterUndos = histAfterUndos ∧
    (hUndo histAfterUndos).current = HVal.null := by
  decide

/-- The undo/redo example app after `setState("test")` and
`setState("different state")`. -/
def histPairApp : HApp HVal :=
  hSet 20 { current := HVal.str "test", past := [], future := [] }
    (HVal.str "different state")

/-- C6: after `setState("test")` then `setState("different state")`,
`undo()` makes the current state `"test"`, and a subsequent `redo()`
makes it `"different state"` again. -/
theorem history_undo_redo_pair :
    (hUndo histPairApp).current = HVal.str "test" ∧
    (hRedo (hUndo histPairApp)).current = HVal.str "different state" := by
  decide

/-! ## JSON values, the state module, and `deepCopy`

`src/dist/lite.js` module 9 keeps the current state behind a private
`initial = {}` sentinel object; `getState` asserts `state !== initial`
and returns `deepCopy(state)`, where
`deepCopy(obj) = JSON.parse(JSON.stringify(obj))`
(`src/src/utils.js` lines 65-71).
-/

/-- JSON scalar values. -/
inductive Prim where
  | null : Prim
  | bool (b : Bool) : Prim
  | num (n : Int) : Prim
  | str (s : String) : Prim
  deriving DecidableEq, Repr

/-- A JSON document: the value-level (structural) view of a
JSON-shaped state, as produced by `JSON.stringify`/`JSON.parse`. -/
inductive Json where
  | prim (p : Prim) : Json
  | arr (elems : List Json) : Json
  | obj (fields : List (String × Json)) : Json

/-- Structural induction for `Json` covering the nested lists. -/
theorem Json.myInduction (P : Json → Prop)
    (hprim : ∀ p, P (.prim p))
    (harr : ∀ l, (∀ j ∈ l, P j) → P (.arr l))
    (hobj : ∀ l, (∀ kv ∈ l, P kv.2) → P (.obj l)) : ∀ j, P j := by
  have H : ∀ n j, sizeOf j < n → P j := by
    intro n
    induction n with
    | zero => intro j h; omega
    | succ n ih =>
        intro j hj
        match j with
        | .prim p => exact hprim p
        | .arr l =>
            apply harr
            intro x hx
            apply ih
            have hmem := List.sizeOf_lt_of_mem hx
            simp only [Json.arr.sizeOf_spec] at hj
            omega
        | .obj l =>
            apply hobj
            intro kv hkv
            apply ih
            have hmem := List.sizeOf_lt_of_mem hkv
            obtain ⟨k, v⟩ := kv
            simp only [Json.obj.sizeOf_spec] at hj
            simp only [Prod.mk.sizeOf_spec] at hmem
            simp only
            omega
  intro j
  exact H (sizeOf j + 1) j (Nat.lt_succ_self _)

mutual

/-- `deepCopy` at the document level: the structural copy performed by
`JSON.parse(JSON.stringify(obj))` on a JSON-shaped value
(`src/src/utils.js` lines 65-71). -/
def jsonDeepCopy : Json → Json
  | .prim p => .prim p
  | .arr l => .arr (jsonDeepCopyList l)
  | .obj l => .obj (jsonDeepCopyFields l)
termination_by j => sizeOf j

/-- Copy of each element of an array. -/
def jsonDeepCopyList : List Json → List Json
  | [] => []
  | j :: rest => jsonDeepCopy j :: jsonDeepCopyList rest
termination_by l => sizeOf l

/-- Copy of each field of an object. -/
def jsonDeepCopyFields : List (String × Json) → List (String × Json)
  | [] => []
  | (k, v) :: rest => (k, jsonDeepCopy v) :: jsonDeepCopyFields rest
termination_by l => sizeOf l

end

/-- At the document level the JSON round-trip returns a structurally
equal value. -/
theorem jsonDeepCopy_eq : ∀ j, jsonDeepCopy j = j := by
  intro j
  induction j using Json.myInduction with
  | hprim p => simp [jsonDeepCopy]
  | harr l ih =>
      simp only [jsonDeepCopy]
      have h2 : ∀ l2, (∀ j ∈ l2, jsonDeepCopy j = j) → jsonDeepCopyList l2 = l2 := by
        intro l2
        induction l2 with
        | nil => intro _; simp [jsonDeepCopyList]
        | cons j rest ihr =>
            intro h
            rw [jsonDeepCopyList, h j (List.mem_cons_self _ _),
              ihr (fun x hx => h x (List.mem_cons_of_mem _ hx))]
      rw [h2 l ih]
  | hobj l ih =>
      simp only [jsonDeepCopy]
      have h2 : ∀ l2, (∀ kv ∈ l2, jsonDeepCopy kv.2 = kv.2) → jsonDeepCopyFields l2 = l2 := by
        intro l2
        induction l2 with
        | nil => intro _; simp [jsonDeepCopyFields]
        | cons kv rest ihr =>
            intro h
            have hv : jsonDeepCopy kv.2 = kv.2 := h kv (List.mem_cons_self _ _)
            obtain ⟨k, v⟩ := kv
            rw [jsonDeepCopyFields, hv,
              ihr (fun x hx => h x (List.mem_cons_of_mem _ hx))]
      rw [h2 l ih]

/-- The state slot of module 9 of `src/dist/lite.js`: `none` models the
private `initial = {}` sentinel, which no caller-supplied value can be
reference-equal to. -/
def stateInitial : Option Json := none

/-- `setState(replacement)` (`src/dist/lite.js` lines 1292-1295):
a literal value replaces the state; a producer function is applied to
`deepCopy(state)` (the sentinel `{}` deep-copies to an empty object)
and its result replaces the state.  The default handler commits the new
state unconditionally. -/
def setStateModel (s : Option Json) (replacement : Json ⊕ (Json → Json)) : Option Json :=
  match replacement with
  | .inl v => some v
  | .inr f => some (f (jsonDeepCopy (match s with | none => Json.obj [] | some v => v)))

/-- `getState()` (`src/dist/lite.js` lines 1297-1300): asserts that the
state is no longer the `initial` sentinel, then returns a deep copy. -/
def getStateModel (s : Option Json) : Except String Json :=
  match s with
  | none => .error "state.getState : cannot get state before it has been set"
  | some v => .ok (jsonDeepCopy v)

/-- A sequence of further `setState` calls. -/
def runSets (s : Option Json) (ops : List (Json ⊕ (Json → Json))) : Option Json :=
  ops.foldl setStateModel s

/-- C8: `getState` before any `setState` throws; after at least one
`setState` (value or producer), any later `getState` returns without
error. -/
theorem getState_unset_errors_then_succeeds :
    (∃ msg, getStateModel stateInitial = .error msg) ∧
    ∀ (s : Option Json) (r : Json ⊕ (Json → Json)) (later : List (Json ⊕ (Json → Json))),
      ∃ v, getStateModel (runSets (setStateModel s r) later) = .ok v := by
  constructor
  · exact ⟨_, rfl⟩
  · intro s r later
    have h : ∀ (ops : List (Json ⊕ (Json → Json))) (s0 : Option Json),
        (∃ w, s0 = some w) → ∃ v, getStateModel (runSets s0 ops) = .ok v := by
      intro ops
      induction ops with
      | nil =>
          intro s0 h0
          rcases h0 with ⟨w, rfl⟩
          exact ⟨jsonDeepCopy w, rfl⟩
      | cons op rest ih =>
          intro s0 _
          have : ∃ w, setStateModel s0 op = some w := by
            cases op with
            | inl v => exact ⟨v, rfl⟩
            | inr f => exact ⟨_, rfl⟩
          exact ih (setStateModel s0 op) this
    apply h later
    cases r with
    | inl v => exact ⟨v, rfl⟩
    | inr f => exact ⟨_, rfl⟩

/-! ## A heap model of `deepCopy` (reference freshness)

To speak about "not the stored reference" and about mutation of the
returned copy, JSON-shaped run-time values are modelled with an explicit
heap: scalars are immediate, arrays and objects are heap nodes addressed
by natural numbers.  `JSON.stringify` reads the reachable structure out
into a document (`decodeVal`), and `JSON.parse` allocates an entirely
fresh structure for it (`encodeJson`). -/

/-- Lookup in an association list, modelling JS property/index access:
the first (most recent) binding for a key wins, a missing key reads as
`undefined` (`none`). -/
def jsLookup {α β : Type} [DecidableEq α] : List (α × β) → α → Option β
  | [], _ => none
  | (k, v) :: rest, a => if a = k then some v else jsLookup rest a

/-- A successful lookup comes from an entry of the list. -/
theorem jsLookup_mem {α β : Type} [DecidableEq α] {l : List (α × β)} {a : α} {n : β}
    (hl : jsLookup l a = some n) : (a, n) ∈ l := by
  induction l with
  | nil => simp [jsLookup] at hl
  | cons en rest ih =>
      obtain ⟨k, v⟩ := en
      by_cases hk : a = k
      · subst hk
        simp [jsLookup] at hl
        subst hl
        exact List.mem_cons_self _ _
      · rw [jsLookup, if_neg hk] at hl
        exact List.mem_cons_of_mem _ (ih hl)

/-- Lookup in an appended list: the left part wins when it has the key. -/
theorem jsLookup_append {α β : Type} [DecidableEq α] (l1 l2 : List (α × β)) (a : α) :
    jsLookup (l1 ++ l2) a =
      match jsLookup l1 a with
      | some n => some n
      | none => jsLookup l2 a := by
  induction l1 with
  | nil => simp [jsLookup]
  | cons en rest ih =>
      obtain ⟨k, v⟩ := en
      by_cases hk : a = k
      · subst hk; simp [jsLookup]
      · rw [List.cons_append, jsLookup, if_neg hk, jsLookup, if_neg hk, ih]

/-- Lookup hits an entry of a list whose keys are distinct. -/
theorem jsLookup_of_mem_nodup {α β : Type} [DecidableEq α] {l : List (α × β)} {a : α} {n : β}
    (hnd : (l.map Prod.fst).Nodup) (hm : (a, n) ∈ l) : jsLookup l a = some n := by
  induction l with
  | nil => cases hm
  | cons en rest ih =>
      obtain ⟨k, v⟩ := en
      rcases List.mem_cons.mp hm with hh | hh
      · rw [Prod.mk.injEq] at hh
        rw [jsLookup, if_pos hh.1, hh.2]
      · have hk : a ≠ k := by
          intro he
          subst he
          have hmk : a ∈ rest.map Prod.fst := List.mem_map.mpr ⟨(a, n), hh, rfl⟩
          rw [List.map_cons, List.nodup_cons] at hnd
          exact hnd.1 hmk
        rw [jsLookup, if_neg hk]
        rw [List.map_cons, List.nodup_cons] at hnd
        exact ih hnd.2 hh

/-- A run-time JS value: a scalar, or a reference to a heap node. -/
inductive JsVal where
  | prim (p : Prim) : JsVal
  | ref (a : Nat) : JsVal
  deriving DecidableEq, Repr

/-- A heap node: an array of values or an object with string fields. -/
inductive HNode where
  | arr (elems : List JsVal) : HNode
  | obj (fields : List (String × JsVal)) : HNode
  deriving DecidableEq, Repr

/-- The heap: an association of addresses to nodes (later entries are
shadowed by earlier ones, so mutation is modelled by prepending). -/
abbrev Heap := List (Nat × HNode)

/-- The addresses a value refers to directly. -/
def valRefs : JsVal → List Nat
  | .prim _ => []
  | .ref a => [a]

/-- All node references are below `bound`. -/
def refsBelowB (bound : Nat) : HNode → Bool
  | .arr elems => elems.all (fun v => (valRefs v).all (fun a => a < bound))
  | .obj fields => fields.all (fun kv => (valRefs kv.2).all (fun a => a < bound))

/-- Heap well-formedness: every allocated address and every address a
node refers to lies below `bound`. -/
def heapWFB (h : Heap) (bound : Nat) : Bool :=
  h.all (fun en => decide (en.1 < bound) && refsBelowB bound en.2)

/-- Decoding of a list of values under a decoder for single values. -/
def decodeList (d : JsVal → Option Json) : List JsVal → Option (List Json)
  | [] => some []
  | v :: rest =>
    match d v, decodeList d rest with
    | some j, some js => some (j :: js)
    | _, _ => none

/-- Decoding of object fields under a decoder for single values. -/
def decodeFields (d : JsVal → Option Json) :
    List (String × JsVal) → Option (List (String × Json))
  | [] => some []
  | (k, v) :: rest =>
    match d v, decodeFields d rest with
    | some j, some js => some ((k, j) :: js)
    | _, _ => none

/-- `JSON.stringify` as a reader of the object graph: decode the value
reachable from `v` in heap `h` into a JSON document, with recursion
fuel (a JSON-shaped value is finite, so enough fuel always exists). -/
def decodeVal : Nat → Heap → JsVal → Option Json
  | _, _, .prim p => some (.prim p)
  | 0, _, .ref _ => none
  | fuel+1, h, .ref a =>
    match jsLookup h a with
    | none => none
    | some (.arr elems) => (decodeList (fun w => decodeVal fuel h w) elems).map Json.arr
    | some (.obj fields) => (decodeFields (fun w => decodeVal fuel h w) fields).map Json.obj

mutual

/-- Nesting depth of a document, a sufficient decoding fuel. -/
def jdepth : Json → Nat
  | .prim _ => 0
  | .arr l => 1 + jdepthList l
  | .obj l => 1 + jdepthFields l
termination_by j => sizeOf j

/-- Depth of a list of documents. -/
def jdepthList : List Json → Nat
  | [] => 0
  | j :: rest => max (jdepth j) (jdepthList rest)
termination_by l => sizeOf l

/-- Depth of object fields. -/
def jdepthFields : List (String × Json) → Nat
  | [] => 0
  | (_, v) :: rest => max (jdepth v) (jdepthFields rest)
termination_by l => sizeOf l

end

mutual

/-- `JSON.parse` as an allocator: build an entirely fresh copy of the
document `j` in the heap, using addresses starting at `b`.  Returns the
new heap entries, the value for `j`, and the next free address. -/
def encodeJson : Json → Nat → List (Nat × HNode) × JsVal × Nat
  | .prim p, b => ([], .prim p, b)
  | .arr l, b =>
    let r := encodeList l b
    (r.1 ++ [(r.2.2, HNode.arr r.2.1)], .ref r.2.2, r.2.2 + 1)
  | .obj l, b =>
    let r := encodeFields l b
    (r.1 ++ [(r.2.2, HNode.obj r.2.1)], .ref r.2.2, r.2.2 + 1)
termination_by j _ => sizeOf j

/-- Fresh copies of the elements of an array. -/
def encodeList : List Json → Nat → List (Nat × HNode) × List JsVal × Nat
  | [], b => ([], [], b)
  | j :: rest, b =>
    let r1 := encodeJson j b
    let r2 := encodeList rest r1.2.2
    (r1.1 ++ r2.1, r1.2.1 :: r2.2.1, r2.2.2)
termination_by l _ => sizeOf l

/-- Fresh copies of the fields of an object. -/
def encodeFields : List (String × Json) → Nat →
    List (Nat × HNode) × List (String × JsVal) × Nat
  | [], b => ([], [], b)
  | (k, v) :: rest, b =>
    let r1 := encodeJson v b
    let r2 := encodeFields rest r1.2.2
    (r1.1 ++ r2.1, (k, r1.2.1) :: r2.2.1, r2.2.2)
termination_by l _ => sizeOf l

end


/-- If a heap is well-formed below `bound`, looked-up keys are below
`bound` and looked-up nodes refer below `bound`. -/
theorem heapWFB_lookup {h : Heap} {bound : Nat} (hwf : heapWFB h bound = true)
    {a : Nat} {n : HNode} (hl : jsLookup h a = some n) :
    a < bound ∧ refsBelowB bound n = true := by
  have hm := jsLookup_mem hl
  have := (List.all_eq_true.mp hwf) (a, n) hm
  simpa using this

/-- Two decoders that agree on successes decode a list identically. -/
theorem decodeList_agree {d1 d2 : JsVal → Option Json}
    (hpt : ∀ v j, d1 v = some j → d2 v = some j) :
    ∀ (l : List JsVal) (js : List Json),
      decodeList d1 l = some js → decodeList d2 l = some js := by
  intro l
  induction l with
  | nil => intro js h; simpa [decodeList] using h
  | cons v rest ih =>
      intro js h
      rw [decodeList] at h
      cases hv : d1 v with
      | none => rw [hv] at h; simp at h
      | some jv =>
          rw [hv] at h
          cases hr : decodeList d1 rest with
          | none => rw [hr] at h; simp at h
          | some jrest =>
              rw [hr] at h
              rw [decodeList, hpt v jv hv, ih jrest hr]
              exact h

/-- Two decoders that agree on successes decode fields identically. -/
theorem decodeFields_agree {d1 d2 : JsVal → Option Json}
    (hpt : ∀ v j, d1 v = some j → d2 v = some j) :
    ∀ (l : List (String × JsVal)) (js : List (String × Json)),
      decodeFields d1 l = some js → decodeFields d2 l = some js := by
  intro l
  induction l with
  | nil => intro js h; simpa [decodeFields] using h
  | cons kv rest ih =>
      obtain ⟨k, v⟩ := kv
      intro js h
      rw [decodeFields] at h
      cases hv : d1 v with
      | none => rw [hv] at h; simp at h
      | some jv =>
          rw [hv] at h
          cases hr : decodeFields d1 rest with
          | none => rw [hr] at h; simp at h
          | some jrest =>
              rw [hr] at h
              rw [decodeFields, hpt v jv hv, ih jrest hr]
              exact h

/-- Decoding only inspects heap entries below `bound`; two heaps that
agree there decode a value identically. -/
theorem decodeVal_agree (bound : Nat) :
    ∀ (fuel : Nat) (h1 h2 : Heap) (v : JsVal) (j : Json),
      heapWFB h1 bound = true →
      (∀ a, a < bound → jsLookup h2 a = jsLookup h1 a) →
      decodeVal fuel h1 v = some j → decodeVal fuel h2 v = some j := by
  intro fuel
  induction fuel with
  | zero =>
      intro h1 h2 v j _ _ hdec
      cases v with
      | prim p => simpa [decodeVal] using hdec
      | ref a => simp [decodeVal] at hdec
  | succ fuel ih =>
      intro h1 h2 v j hwf hagree hdec
      cases v with
      | prim p => simpa [decodeVal] using hdec
      | ref a =>
          rw [decodeVal] at hdec ⊢
          cases hl : jsLookup h1 a with
          | none => rw [hl] at hdec; simp at hdec
          | some n =>
              rw [hl] at hdec
              have ha : a < bound := (heapWFB_lookup hwf hl).1
              rw [hagree a ha, hl]
              have hpt : ∀ w jw, decodeVal fuel h1 w = some jw →
                  decodeVal fuel h2 w = some jw :=
                fun w jw hw => ih h1 h2 w jw hwf hagree hw
              cases n with
              | arr elems =>
                  simp only [Option.map_eq_some'] at hdec ⊢
                  obtain ⟨js, hjs, hj⟩ := hdec
                  exact ⟨js, decodeList_agree hpt elems js hjs, hj⟩
              | obj fields =>
                  simp only [Option.map_eq_some'] at hdec ⊢
                  obtain ⟨js, hjs, hj⟩ := hdec
                  exact ⟨js, decodeFields_agree hpt fields js hjs, hj⟩

/-- Lookup misses when all keys are at least `b` and the key is below. -/
theorem jsLookup_none_of_keys_ge {β : Type} {l : List (Nat × β)} {b a : Nat}
    (hk : ∀ en ∈ l, b ≤ en.1) (ha : a < b) : jsLookup l a = none := by
  induction l with
  | nil => rfl
  | cons en rest ih =>
      obtain ⟨k, v⟩ := en
      have h1 := hk (k, v) (List.mem_cons_self _ _)
      have hne : a ≠ k := by simp at h1; omega
      rw [jsLookup, if_neg hne]
      exact ih (fun x hx => hk x (List.mem_cons_of_mem _ hx))

/-- In a heap well-formed below `bound`, addresses at or above `bound`
are unallocated. -/
theorem jsLookup_none_of_heapWFB {h : Heap} {bound a : Nat}
    (hwf : heapWFB h bound = true) (ha : bound ≤ a) : jsLookup h a = none := by
  cases hl : jsLookup h a with
  | none => rfl
  | some n =>
      have := (heapWFB_lookup hwf hl).1
      omega

/-- The specification of `encodeJson` at one document: the next free
address does not decrease, all new entries and all references of the
returned value are fresh (in `[b, next)`), new addresses are distinct,
and in any heap containing the new entries the returned value decodes
back to the original document. -/
def encodeSpec (j : Json) : Prop :=
  ∀ b : Nat,
    b ≤ (encodeJson j b).2.2 ∧
    (∀ en ∈ (encodeJson j b).1, b ≤ en.1 ∧ en.1 < (encodeJson j b).2.2) ∧
    ((encodeJson j b).1.map Prod.fst).Nodup ∧
    (∀ a ∈ valRefs (encodeJson j b).2.1, b ≤ a ∧ a < (encodeJson j b).2.2) ∧
    (∀ H : Heap, (∀ en ∈ (encodeJson j b).1, jsLookup H en.1 = some en.2) →
      ∀ fuel, jdepth j ≤ fuel → decodeVal fuel H (encodeJson j b).2.1 = some j)

/-- The corresponding specification for a list of documents. -/
def encodeListSpec (l : List Json) : Prop :=
  ∀ b : Nat,
    b ≤ (encodeList l b).2.2 ∧
    (∀ en ∈ (encodeList l b).1, b ≤ en.1 ∧ en.1 < (encodeList l b).2.2) ∧
    ((encodeList l b).1.map Prod.fst).Nodup ∧
    (∀ v ∈ (encodeList l b).2.1, ∀ a ∈ valRefs v, b ≤ a ∧ a < (encodeList l b).2.2) ∧
    (∀ H : Heap, (∀ en ∈ (encodeList l b).1, jsLookup H en.1 = some en.2) →
      ∀ fuel, jdepthList l ≤ fuel →
        decodeList (fun w => decodeVal fuel H w) (encodeList l b).2.1 = some l)

/-- The corresponding specification for object fields. -/
def encodeFieldsSpec (l : List (String × Json)) : Prop :=
  ∀ b : Nat,
    b ≤ (encodeFields l b).2.2 ∧
    (∀ en ∈ (encodeFields l b).1, b ≤ en.1 ∧ en.1 < (encodeFields l b).2.2) ∧
    ((encodeFields l b).1.map Prod.fst).Nodup ∧
    (∀ kv ∈ (encodeFields l b).2.1, ∀ a ∈ valRefs kv.2,
      b ≤ a ∧ a < (encodeFields l b).2.2) ∧
    (∀ H : Heap, (∀ en ∈ (encodeFields l b).1, jsLookup H en.1 = some en.2) →
      ∀ fuel, jdepthFields l ≤ fuel →
        decodeFields (fun w => decodeVal fuel H w) (encodeFields l b).2.1 = some l)

/-- `encodeList` satisfies its specification when each element does. -/
theorem encodeList_spec (l : List Json) (hpt : ∀ j ∈ l, encodeSpec j) :
    encodeListSpec l := by
  induction l with
  | nil =>
      intro b
      rw [encodeList]
      dsimp only
      refine ⟨le_refl _, ?_, ?_, ?_, ?_⟩
      · intro en hen; simp at hen
      · simp
      · intro v hv; simp at hv
      · intro H _ fuel _; rw [decodeList]
  | cons j rest ih =>
      have hj := hpt j (List.mem_cons_self _ _)
      have hrest := ih (fun x hx => hpt x (List.mem_cons_of_mem _ hx))
      intro b
      obtain ⟨h1le, h1ent, h1nd, h1ref, h1dec⟩ := hj b
      obtain ⟨h2le, h2ent, h2nd, h2ref, h2dec⟩ := hrest (encodeJson j b).2.2
      rw [encodeList]
      dsimp only
      refine ⟨by omega, ?_, ?_, ?_, ?_⟩
      · intro en hen
        rcases List.mem_append.mp hen with hh | hh
        · have := h1ent en hh; constructor <;> omega
        · have := h2ent en hh; constructor <;> omega
      · rw [List.map_append]
        rw [List.nodup_append]
        refine ⟨h1nd, h2nd, ?_⟩
        intro a ha1 ha2
        rw [List.mem_map] at ha1 ha2
        obtain ⟨e1, he1, he1k⟩ := ha1
        obtain ⟨e2, he2, he2k⟩ := ha2
        have q1 := h1ent e1 he1
        have q2 := h2ent e2 he2
        omega
      · intro v hv a ha
        rcases List.mem_cons.mp hv with hh | hh
        · subst hh
          have := h1ref a ha
          constructor <;> omega
        · have := h2ref v hh a ha
          constructor <;> omega
      · intro H hH fuel hfuel
        rw [jdepthList] at hfuel
        rw [decodeList]
        rw [h1dec H (fun en hen => hH en (List.mem_append.mpr (Or.inl hen))) fuel
          (by omega)]
        rw [h2dec H (fun en hen => hH en (List.mem_append.mpr (Or.inr hen))) fuel
          (by omega)]

/-- `encodeFields` satisfies its specification when each field does. -/
theorem encodeFields_spec (l : List (String × Json)) (hpt : ∀ kv ∈ l, encodeSpec kv.2) :
    encodeFieldsSpec l := by
  induction l with
  | nil =>
      intro b
      rw [encodeFields]
      dsimp only
      refine ⟨le_refl _, ?_, ?_, ?_, ?_⟩
      · intro en hen; simp at hen
      · simp
      · intro v hv; simp at hv
      · intro H _ fuel _; rw [decodeFields]
  | cons kv rest ih =>
      have hj := hpt kv (List.mem_cons_self _ _)
      have hrest := ih (fun x hx => hpt x (List.mem_cons_of_mem _ hx))
      obtain ⟨k, v⟩ := kv
      intro b
      obtain ⟨h1le, h1ent, h1nd, h1ref, h1dec⟩ := hj b
      obtain ⟨h2le, h2ent, h2nd, h2ref, h2dec⟩ := hrest (encodeJson v b).2.2
      rw [encodeFields]
      dsimp only
      dsimp only at h1le h1ent h1nd h1ref h1dec
      refine ⟨by omega, ?_, ?_, ?_, ?_⟩
      · intro en hen
        rcases List.mem_append.mp hen with hh | hh
        · have := h1ent en hh; constructor <;> omega
        · have := h2ent en hh; constructor <;> omega
      · rw [List.map_append]
        rw [List.nodup_append]
        refine ⟨h1nd, h2nd, ?_⟩
        intro a ha1 ha2
        rw [List.mem_map] at ha1 ha2
        obtain ⟨e1, he1, he1k⟩ := ha1
        obtain ⟨e2, he2, he2k⟩ := ha2
        have q1 := h1ent e1 he1
        have q2 := h2ent e2 he2
        omega
      · intro w hw a ha
        rcases List.mem_cons.mp hw with hh | hh
        · subst hh
          simp only at ha
          have := h1ref a ha
          constructor <;> omega
        · have := h2ref w hh a ha
          constructor <;> omega
      · intro H hH fuel hfuel
        rw [jdepthFields] at hfuel
        rw [decodeFields]
        rw [h1dec H (fun en hen => hH en (List.mem_append.mpr (Or.inl hen))) fuel
          (by omega)]
        rw [h2dec H (fun en hen => hH en (List.mem_append.mpr (Or.inr hen))) fuel
          (by omega)]

/-- `encodeJson` satisfies its specification. -/
theorem encodeJson_spec : ∀ j, encodeSpec j := by
  intro j
  induction j using Json.myInduction with
  | hprim p =>
      intro b
      rw [encodeJson]
      dsimp only
      refine ⟨le_refl _, ?_, ?_, ?_, ?_⟩
      · intro en hen; simp at hen
      · simp
      · intro a ha; simp [valRefs] at ha
      · intro H _ fuel _
        cases fuel <;> rw [decodeVal]
  | harr l ih =>
      have hl := encodeList_spec l ih
      intro b
      obtain ⟨h0le, h0ent, h0nd, h0ref, h0dec⟩ := hl b
      rw [encodeJson]
      dsimp only
      refine ⟨by omega, ?_, ?_, ?_, ?_⟩
      · intro en hen
        rcases List.mem_append.mp hen with hh | hh
        · have := h0ent en hh; constructor <;> omega
        · simp at hh
          subst hh
          dsimp only
          omega
      · rw [List.map_append, List.nodup_append]
        refine ⟨h0nd, List.nodup_singleton _, ?_⟩
        intro a ha1 ha2
        simp at ha2
        rw [List.mem_map] at ha1
        obtain ⟨e1, he1, he1k⟩ := ha1
        have q1 := h0ent e1 he1
        omega
      · intro a ha
        simp only [valRefs, List.mem_singleton] at ha
        subst ha
        omega
      · intro H hH fuel hfuel
        rw [jdepth] at hfuel
        obtain ⟨f, rfl⟩ : ∃ f, fuel = f + 1 := ⟨fuel - 1, by omega⟩
        have hnode : jsLookup H (encodeList l b).2.2 = some (HNode.arr (encodeList l b).2.1) :=
          hH ((encodeList l b).2.2, HNode.arr (encodeList l b).2.1)
            (List.mem_append.mpr (Or.inr (List.mem_singleton.mpr rfl)))
        rw [decodeVal, hnode]
        dsimp only
        rw [h0dec H (fun en hen => hH en (List.mem_append.mpr (Or.inl hen))) f (by omega)]
        rfl
  | hobj l ih =>
      have hl := encodeFields_spec l ih
      intro b
      obtain ⟨h0le, h0ent, h0nd, h0ref, h0dec⟩ := hl b
      rw [encodeJson]
      dsimp only
      refine ⟨by omega, ?_, ?_, ?_, ?_⟩
      · intro en hen
        rcases List.mem_append.mp hen with hh | hh
        · have := h0ent en hh; constructor <;> omega
        · simp at hh
          subst hh
          dsimp only
          omega
      · rw [List.map_append, List.nodup_append]
        refine ⟨h0nd, List.nodup_singleton _, ?_⟩
        intro a ha1 ha2
        simp at ha2
        rw [List.mem_map] at ha1
        obtain ⟨e1, he1, he1k⟩ := ha1
        have q1 := h0ent e1 he1
        omega
      · intro a ha
        simp only [valRefs, List.mem_singleton] at ha
        subst ha
        omega
      · intro H hH fuel hfuel
        rw [jdepth] at hfuel
        obtain ⟨f, rfl⟩ : ∃ f, fuel = f + 1 := ⟨fuel - 1, by omega⟩
        have hnode : jsLookup H (encodeFields l b).2.2 =
            some (HNode.obj (encodeFields l b).2.1) :=
          hH ((encodeFields l b).2.2, HNode.obj (encodeFields l b).2.1)
            (List.mem_append.mpr (Or.inr (List.mem_singleton.mpr rfl)))
        rw [decodeVal, hnode]
        dsimp only
        rw [h0dec H (fun en hen => hH en (List.mem_append.mpr (Or.inl hen))) f (by omega)]
        rfl

/-- C10: `deepCopy` (the JSON round-trip performed by `getState`,
`src/dist/lite.js` lines 1297-1300) returns a structurally equal value
built entirely at fresh addresses: the copy decodes to the same
document as the stored state, it is not the stored reference (all of
its references lie at or above the old allocation bound), and mutating
any fresh address — in particular anything reachable from the returned
copy — leaves the document of the stored state unchanged, so later
`getState()` calls still return the same value. -/
theorem deepCopy_fresh_and_independent
    (h : Heap) (bound : Nat) (v : JsVal) (fuel : Nat) (j : Json)
    (hwf : heapWFB h bound = true)
    (hdec : decodeVal fuel h v = some j) :
    decodeVal (jdepth j) (h ++ (encodeJson j bound).1) (encodeJson j bound).2.1 = some j ∧
    (∀ a ∈ valRefs (encodeJson j bound).2.1, bound ≤ a ∧ a < (encodeJson j bound).2.2) ∧
    (∀ a n, bound ≤ a →
      decodeVal fuel ((a, n) :: (h ++ (encodeJson j bound).1)) v = some j) := by
  obtain ⟨hle, hent, hnd, href, hdecspec⟩ := encodeJson_spec j bound
  refine ⟨?_, href, ?_⟩
  · apply hdecspec
    · intro en hen
      rw [jsLookup_append]
      have h1 : jsLookup h en.1 = none := jsLookup_none_of_heapWFB hwf (hent en hen).1
      rw [h1]
      exact jsLookup_of_mem_nodup hnd (by rw [Prod.mk.eta]; exact hen)
    · exact le_refl _
  · intro a n ha
    apply decodeVal_agree bound fuel h _ v j hwf ?_ hdec
    intro a2 ha2
    rw [jsLookup, if_neg (by omega)]
    rw [jsLookup_append]
    cases hl : jsLookup h a2 with
    | some m => rfl
    | none =>
        dsimp only
        exact jsLookup_none_of_keys_ge (fun en hen => (hent en hen).1) ha2

/-- A one-entry heap for the witness: address 0 holds the object
written in the tests, with allocation bound 1. -/
def c10Heap : Heap := [(0, HNode.obj [("test", JsVal.prim (Prim.bool true))])]

/-- The document stored in `c10Heap` at address 0. -/
def c10Doc : Json := Json.obj [("test", Json.prim (Prim.bool true))]

/-- Witness for C10 at a concrete heap and state. -/
theorem deepCopy_fresh_and_independent_witness :
    (heapWFB c10Heap 1 = true ∧ decodeVal 1 c10Heap (JsVal.ref 0) = some c10Doc) ∧
    (decodeVal (jdepth c10Doc) (c10Heap ++ (encodeJson c10Doc 1).1)
        (encodeJson c10Doc 1).2.1 = some c10Doc ∧
      (∀ a ∈ valRefs (encodeJson c10Doc 1).2.1, 1 ≤ a ∧ a < (encodeJson c10Doc 1).2.2) ∧
      (∀ a n, 1 ≤ a →
        decodeVal 1 ((a, n) :: (c10Heap ++ (encodeJson c10Doc 1).1)) (JsVal.ref 0) =
          some c10Doc)) :=
  ⟨⟨by decide, rfl⟩,
    deepCopy_fresh_and_independent c10Heap 1 (JsVal.ref 0) 1 c10Doc (by decide) rfl⟩

/-! ## The Key-Ordering Heuristic (`longestChain`) and child reordering

`longestChain` (`src/src/utils.js` lines 240-281; byte-for-byte the
same algorithm in `src/dist/lite.js` lines 727-763) scans the second
argument (`successor`), locates each key in `original` with `indexOf`,
extends the run of equal keys, and keeps the longest run found, with an
early exit once the run covers at least half the sequence.  Its caller
(`update`, `src/dist/lite.js` lines 926-947) moves the keys before the
run to the front (in reverse) and the keys after it to the back. -/

/-- JS array read `l[i]` at a possibly negative index (`undefined` when
out of range). -/
def jsGet (l : List String) (i : Int) : Option String :=
  if 0 ≤ i then l[i.toNat]? else none

/-- JS `Array.prototype.indexOf`: first index of `x`, `-1` if absent. -/
def jsIndexOf (l : List String) (x : String) : Int :=
  if x ∈ l then (List.indexOf x l : Int) else -1

/-- The inner loop of `longestChain` (`for (inc = 1; inc < maxInc)`):
from offset `inc`, with `steps` iterations remaining, count the
consecutive offsets at which `successor[i + inc] === original[startInc + inc]`. -/
def chainExtend (original successor : List String) (startInc : Int) (i : Nat) :
    Nat → Nat → Nat
  | _, 0 => 0
  | inc, steps+1 =>
    if jsGet successor ((i + inc : Nat) : Int) = jsGet original (startInc + (inc : Int)) then
      1 + chainExtend original successor startInc i (inc + 1) steps
    else 0

/-- One iteration of the outer loop of `longestChain`: the
`currentLength` computed at index `i` of `successor` (`startInc`,
`maxInc` and the inner loop as in the source). -/
def currentLengthAt (original successor : List String) (i : Nat) : Nat :=
  let count := successor.length
  let startInc := jsIndexOf original (successor.getD i "")
  let maxInc : Int := min ((count : Int) - startInc) ((count : Int) - i)
  1 + chainExtend original successor startInc i 1 (maxInc - 1).toNat

/-- The outer loop of `longestChain` with its two exits: the scan
ending (`i` reaches `count`, here via the fuel that starts at `count`)
and the early exit `longest >= half`, written in the exact integer form
`2 * longest ≥ count` of `longest >= count / 2` (this float comparison
is exact for array lengths).  Returns `(longest, chainStart)`. -/
def lcGo (original successor : List String) (count : Nat) :
    Nat → Nat → Nat → Nat → Nat × Nat
  | 0, _, longest, chainStart => (longest, chainStart)
  | fuel+1, i, longest, chainStart =>
    if count ≤ i then (longest, chainStart)
    else
      let currentLength := currentLengthAt original successor i
      let longest2 := if longest < currentLength then currentLength else longest
      let chainStart2 := if longest < currentLength then i else chainStart
      if count ≤ 2 * longest2 then (longest2, chainStart2)
      else lcGo original successor count fuel (i+1) longest2 chainStart2

/-- `longestChain(original, successor)`: start and end indices of the
identified run (`end` is `start + longest - 1`, so `-1` on empty
input, hence `Int`). -/
def longestChain (original successor : List String) : Int × Int :=
  let count := successor.length
  let r := lcGo original successor count count 0 0 0
  ((r.2 : Int), (r.2 : Int) + (r.1 : Int) - 1)

/-- The child-reordering step of `update` (`src/dist/lite.js` lines
926-947) as a transformation of the live key order `live` toward
`target` (the successor's `childOrder`): the keys of `target` before
the returned range are each inserted before the first child (iterating
in reverse), the keys after it are appended at the back (in order); a
DOM move implicitly removes the node from its previous position. -/
def reorderChildren (live target : List String) : List String :=
  let r := longestChain live target
  let startKeys := target.take r.1.toNat
  let endKeys := target.drop (r.2 + 1).toNat
  let afterFront := startKeys.reverse.foldl (fun acc k => k :: acc.erase k) live
  endKeys.foldl (fun acc k => acc.erase k ++ [k]) afterFront

/-- Some two adjacent keys of `target` also occur adjacently, in the
same order, in `cur`. -/
def hasMatchingAdjacentPair (cur target : List String) : Prop :=
  ∃ i < target.length, ∃ p < cur.length,
    target[i]? = cur[p]? ∧ target[i+1]? = cur[p+1]? ∧ (target[i+1]?).isSome

instance (cur target : List String) : Decidable (hasMatchingAdjacentPair cur target) := by
  unfold hasMatchingAdjacentPair
  infer_instance

/-- A common contiguous run: the `L` keys of `target` starting at `i`
appear contiguously, in the same order, in `cur` starting at `p`. -/
def isCommonRun (cur target : List String) (i p L : Nat) : Prop :=
  i + L ≤ target.length ∧ p + L ≤ cur.length ∧
    ∀ d < L, target[i + d]? = cur[p + d]?

instance (cur target : List String) (i p L : Nat) :
    Decidable (isCommonRun cur target i p L) := by
  unfold isCommonRun
  infer_instance

/-- Reading at a natural index is plain list indexing. -/
theorem jsGet_natCast (l : List String) (n : Nat) : jsGet l (n : Int) = l[n]? := by
  simp [jsGet]

/-- Exact characterization of the inner loop: the returned count is at
most `steps`, every counted offset matches, and if the loop stopped
before exhausting `steps` the next offset mismatches. -/
theorem chainExtend_spec (o s : List String) (startInc : Int) (i : Nat) :
    ∀ (steps inc : Nat),
      chainExtend o s startInc i inc steps ≤ steps ∧
      (∀ d < chainExtend o s startInc i inc steps,
        jsGet s ((i + (inc + d) : Nat) : Int) =
          jsGet o (startInc + ((inc + d : Nat) : Int))) ∧
      (chainExtend o s startInc i inc steps < steps →
        jsGet s ((i + (inc + chainExtend o s startInc i inc steps) : Nat) : Int) ≠
          jsGet o (startInc + ((inc + chainExtend o s startInc i inc steps : Nat) : Int))) := by
  intro steps
  induction steps with
  | zero =>
      intro inc
      refine ⟨le_refl _, ?_, ?_⟩
      · intro d hd; simp [chainExtend] at hd
      · intro h; simp [chainExtend] at h
  | succ steps ih =>
      intro inc
      rw [chainExtend]
      by_cases hc : jsGet s ((i + inc : Nat) : Int) = jsGet o (startInc + (inc : Int))
      · rw [if_pos hc]
        obtain ⟨ihle, ihmatch, ihmiss⟩ := ih (inc + 1)
        refine ⟨by omega, ?_, ?_⟩
        · intro d hd
          match d with
          | 0 => simpa using hc
          | d' + 1 =>
              have h1 := ihmatch d' (by omega)
              have e1 : i + (inc + (d' + 1)) = i + (inc + 1 + d') := by omega
              have e2 : startInc + ((inc + (d' + 1) : Nat) : Int) =
                  startInc + ((inc + 1 + d' : Nat) : Int) := by
                push_cast
                ring
              rw [e1, e2]
              exact h1
        · intro hlt
          have h1 := ihmiss (by omega)
          have e1 : i + (inc + (1 + chainExtend o s startInc i (inc + 1) steps)) =
              i + (inc + 1 + chainExtend o s startInc i (inc + 1) steps) := by omega
          have e2 : startInc +
                ((inc + (1 + chainExtend o s startInc i (inc + 1) steps) : Nat) : Int) =
              startInc + ((inc + 1 + chainExtend o s startInc i (inc + 1) steps : Nat) : Int) := by
            push_cast
            ring
          rw [e1, e2]
          exact h1
      · rw [if_neg hc]
        refine ⟨by omega, ?_, ?_⟩
        · intro d hd; omega
        · intro _
          simpa using hc

/-- Reading at an offset from a natural base index. -/
theorem jsGet_base_add (l : List String) (p n : Nat) :
    jsGet l ((p : Int) + (n : Int)) = l[p + n]? := by
  have h : (p : Int) + (n : Int) = ((p + n : Nat) : Int) := by push_cast; ring
  rw [h, jsGet_natCast]

/-- Under the permutation/uniqueness contract, the `currentLength`
computed at `i` is a genuine common run starting at `i` in the
successor and at `indexOf successor[i]` in the original. -/
theorem currentLengthAt_run (cur tgt : List String)
    (hperm : cur.Perm tgt) (i : Nat) (hi : i < tgt.length) :
    1 ≤ currentLengthAt cur tgt i ∧
    isCommonRun cur tgt i (List.indexOf (tgt.getD i "") cur) (currentLengthAt cur tgt i) := by
  have hlen : cur.length = tgt.length := hperm.length_eq
  have hx : tgt.getD i "" = tgt[i] := by
    simp [List.getD_eq_getElem?_getD, List.getElem?_eq_getElem hi]
  have hmem : tgt[i] ∈ cur := hperm.mem_iff.mpr (List.getElem_mem hi)
  set x := tgt.getD i "" with hxdef
  have hmemx : x ∈ cur := by rw [hx]; exact hmem
  set p := List.indexOf x cur with hpdef
  have hp : p < cur.length := List.indexOf_lt_length.mpr hmemx
  have hidx : jsIndexOf cur x = (p : Int) := by
    rw [jsIndexOf, if_pos hmemx]
  have hcurp : cur[p]? = some x := by
    rw [List.getElem?_eq_getElem hp]
    simp [hpdef, List.getElem_indexOf]
  rw [currentLengthAt]
  simp only [← hxdef, hidx]
  set count := tgt.length with hcount
  set maxInc : Int := min ((count : Int) - (p : Int)) ((count : Int) - (i : Int)) with hmx
  set steps := (maxInc - 1).toNat with hsteps
  obtain ⟨hle, hmatch, _⟩ := chainExtend_spec cur tgt (p : Int) i steps 1
  set m := chainExtend cur tgt (p : Int) i 1 steps with hm
  have hmx1 : 1 ≤ maxInc := by
    rw [hmx]
    omega
  have hstep1 : (steps : Int) = maxInc - 1 := by
    rw [hsteps]
    omega
  refine ⟨by omega, ?_, ?_, ?_⟩
  · omega
  · omega
  · intro d hd
    match d with
    | 0 =>
        rw [Nat.add_zero, Nat.add_zero, List.getElem?_eq_getElem hi, hcurp, ← hx]
    | d' + 1 =>
        have hdm : d' < m := by omega
        have h1 := hmatch d' hdm
        have e1 : i + (1 + d') = i + (d' + 1) := by omega
        have e2 : ((1 + d' : Nat) : Int) = ((d' + 1 : Nat) : Int) := by push_cast; ring
        rw [e1, e2] at h1
        rw [jsGet_natCast, jsGet_base_add] at h1
        exact h1

/-- Under the permutation/uniqueness contract, no common run starting
at `i` is longer than the `currentLength` computed at `i`. -/
theorem currentLengthAt_max (cur tgt : List String)
    (hperm : cur.Perm tgt) (hnd : tgt.Nodup) (i p L : Nat)
    (hrun : isCommonRun cur tgt i p L) (hL : 1 ≤ L) :
    L ≤ currentLengthAt cur tgt i := by
  have hndc : cur.Nodup := (hperm.nodup_iff).mpr hnd
  have hlen : cur.length = tgt.length := hperm.length_eq
  obtain ⟨hbt, hbc, hmt⟩ := hrun
  have hi : i < tgt.length := by omega
  have hpc : p < cur.length := by omega
  have hx : tgt.getD i "" = tgt[i] := by
    simp [List.getD_eq_getElem?_getD, List.getElem?_eq_getElem hi]
  set x := tgt.getD i "" with hxdef
  have h0 := hmt 0 (by omega)
  rw [Nat.add_zero, Nat.add_zero, List.getElem?_eq_getElem hi,
    List.getElem?_eq_getElem hpc] at h0
  have hcurp : cur[p] = tgt[i] := by
    injection h0 with h0'
    exact h0'.symm
  have hmemx : x ∈ cur := by
    rw [hx]
    exact hperm.mem_iff.mpr (List.getElem_mem hi)
  have hpeq : List.indexOf x cur = p := by
    rw [hx, ← hcurp]
    exact List.indexOf_getElem hndc p hpc
  have hidx : jsIndexOf cur x = (p : Int) := by
    rw [jsIndexOf, if_pos hmemx, hpeq]
  rw [currentLengthAt]
  simp only [← hxdef, hidx]
  set count := tgt.length with hcount
  set maxInc : Int := min ((count : Int) - (p : Int)) ((count : Int) - (i : Int)) with hmx
  set steps := (maxInc - 1).toNat with hsteps
  obtain ⟨hle, hmatch, hmiss⟩ := chainExtend_spec cur tgt (p : Int) i steps 1
  set m := chainExtend cur tgt (p : Int) i 1 steps with hm
  by_contra hcon
  push_neg at hcon
  have hmlt : m + 1 < L := by omega
  have hLmax : (L : Int) ≤ maxInc := by
    rw [hmx]
    omega
  have hmsteps : m < steps := by omega
  have hne := hmiss hmsteps
  have heq := hmt (1 + m) (by omega)
  apply hne
  rw [jsGet_natCast, jsGet_base_add]
  rw [List.getElem?_eq_getElem (by omega), List.getElem?_eq_getElem (by omega)] at heq ⊢
  exact heq

/-- `currentLength` is always at least 1 (a key matches itself). -/
theorem currentLengthAt_pos (cur tgt : List String) (i : Nat) :
    1 ≤ currentLengthAt cur tgt i := by
  simp only [currentLengthAt]
  omega

/-- Invariant of the outer loop: the best-so-far `longest` is the
`currentLength` of `chainStart`, every scanned index did no better, and
every index left of `chainStart` did strictly worse. -/
def lcInv (cur tgt : List String) (i longest chainStart : Nat) : Prop :=
  (longest = 0 → i = 0 ∧ chainStart = 0) ∧
  (1 ≤ longest → chainStart < i ∧ currentLengthAt cur tgt chainStart = longest) ∧
  (∀ jj < i, currentLengthAt cur tgt jj ≤ longest) ∧
  (∀ jj < chainStart, currentLengthAt cur tgt jj < longest)

/-- What the outer loop guarantees on exit: the result is monotone in
the accumulator, positive once anything was scanned, and there is an
exit point `iexit` such that every index before it was scanned and did
not beat the result, the loop either scanned everything or exited early
with `2 * longest ≥ count`, the winner is the leftmost index scanned
achieving the result, and indices left of it did strictly worse. -/
theorem lcGo_spec (cur tgt : List String) (count : Nat) :
    ∀ (fuel i longest chainStart : Nat),
      i + fuel = count →
      lcInv cur tgt i longest chainStart →
      longest ≤ (lcGo cur tgt count fuel i longest chainStart).1 ∧
      (i < count → 1 ≤ (lcGo cur tgt count fuel i longest chainStart).1) ∧
      ∃ iexit ≤ count,
        (iexit = count ∨ count ≤ 2 * (lcGo cur tgt count fuel i longest chainStart).1) ∧
        (∀ jj < iexit,
          currentLengthAt cur tgt jj ≤ (lcGo cur tgt count fuel i longest chainStart).1) ∧
        (1 ≤ (lcGo cur tgt count fuel i longest chainStart).1 →
          (lcGo cur tgt count fuel i longest chainStart).2 < iexit ∧
          currentLengthAt cur tgt (lcGo cur tgt count fuel i longest chainStart).2 =
            (lcGo cur tgt count fuel i longest chainStart).1) ∧
        (∀ jj < (lcGo cur tgt count fuel i longest chainStart).2,
          currentLengthAt cur tgt jj <
            (lcGo cur tgt count fuel i longest chainStart).1) := by
  intro fuel
  induction fuel with
  | zero =>
      intro i longest chainStart hfi hinv
      obtain ⟨h0, h1, h2, h3⟩ := hinv
      rw [lcGo]
      refine ⟨le_refl _, by omega, i, by omega, Or.inl (by omega), ?_, ?_, h3⟩
      · intro jj hjj; exact h2 jj hjj
      · intro hl; exact ⟨(h1 hl).1, (h1 hl).2⟩
  | succ fuel ih =>
      intro i longest chainStart hfi hinv
      obtain ⟨h0, h1, h2, h3⟩ := hinv
      have hic : i < count := by omega
      rw [lcGo, if_neg (by omega)]
      dsimp only
      have hcl1 : 1 ≤ currentLengthAt cur tgt i := currentLengthAt_pos cur tgt i
      by_cases hup : longest < currentLengthAt cur tgt i
      · simp only [if_pos hup]
        have hinv2 : lcInv cur tgt (i + 1) (currentLengthAt cur tgt i) i := by
          refine ⟨by omega, ?_, ?_, ?_⟩
          · intro _; exact ⟨by omega, rfl⟩
          · intro jj hjj
            rcases Nat.lt_succ_iff_lt_or_eq.mp hjj with hlt | heq
            · exact le_of_lt (lt_of_le_of_lt (h2 jj hlt) hup)
            · rw [heq]
          · intro jj hjj
            exact lt_of_le_of_lt (h2 jj hjj) hup
        by_cases hex : count ≤ 2 * currentLengthAt cur tgt i
        · rw [if_pos hex]
          obtain ⟨g0, g1, g2, g3⟩ := hinv2
          refine ⟨by omega, by omega, i + 1, by omega, Or.inr hex, g2, ?_, g3⟩
          intro _
          exact ⟨by omega, rfl⟩
        · rw [if_neg hex]
          obtain ⟨hmono, hpos, hpost⟩ := ih (i + 1) (currentLengthAt cur tgt i) i
            (by omega) hinv2
          refine ⟨by omega, fun _ => by omega, hpost⟩
      · simp only [if_neg hup]
        have hl1 : 1 ≤ longest := by omega
        have hinv2 : lcInv cur tgt (i + 1) longest chainStart := by
          refine ⟨by omega, ?_, ?_, h3⟩
          · intro hl; exact ⟨by omega, (h1 hl).2⟩
          · intro jj hjj
            rcases Nat.lt_succ_iff_lt_or_eq.mp hjj with hlt | heq
            · exact h2 jj hlt
            · rw [heq]; omega
        by_cases hex : count ≤ 2 * longest
        · rw [if_pos hex]
          obtain ⟨g0, g1, g2, g3⟩ := hinv2
          refine ⟨le_refl _, by omega, i + 1, by omega, Or.inr hex, g2, ?_, g3⟩
          intro _
          exact ⟨by omega, (h1 hl1).2⟩
        · rw [if_neg hex]
          obtain ⟨hmono, hpos, hpost⟩ := ih (i + 1) longest chainStart (by omega) hinv2
          refine ⟨hmono, fun _ => by omega, hpost⟩

/-- Positions of a key in a duplicate-free list are unique. -/
theorem nodup_getElem?_inj {l : List String} (hnd : l.Nodup) {a b : Nat} {x : String}
    (ha : l[a]? = some x) (hb : l[b]? = some x) : a = b := by
  rw [List.getElem?_eq_some] at ha hb
  obtain ⟨ha1, ha2⟩ := ha
  obtain ⟨hb1, hb2⟩ := hb
  have h1 := List.indexOf_getElem hnd a ha1
  have h2 := List.indexOf_getElem hnd b hb1
  rw [ha2] at h1
  rw [hb2] at h2
  omega

/-- The `(longest, chainStart)` pair computed by the full scan. -/
def lcRun (original successor : List String) : Nat × Nat :=
  lcGo original successor successor.length successor.length 0 0 0

/-- The heart of the heuristic's correctness under the
permutation/uniqueness contract: the scan's winner is a genuine common
run, no common contiguous run whatsoever is longer (in particular the
early exit misses nothing), and the winner is the leftmost start
achieving the maximal length. -/
theorem lcRun_core (cur tgt : List String) (hperm : cur.Perm tgt) (hnd : tgt.Nodup) :
    (tgt ≠ [] → 1 ≤ (lcRun cur tgt).1) ∧
    (1 ≤ (lcRun cur tgt).1 →
      (lcRun cur tgt).2 + (lcRun cur tgt).1 ≤ tgt.length ∧
      isCommonRun cur tgt (lcRun cur tgt).2
        (List.indexOf (tgt.getD (lcRun cur tgt).2 "") cur) (lcRun cur tgt).1) ∧
    (∀ i p L2, isCommonRun cur tgt i p L2 → L2 ≤ (lcRun cur tgt).1) ∧
    (∀ i p, isCommonRun cur tgt i p (lcRun cur tgt).1 → 1 ≤ (lcRun cur tgt).1 →
      (lcRun cur tgt).2 ≤ i) := by
  set count := tgt.length with hcount
  have hinv0 : lcInv cur tgt 0 0 0 := by
    refine ⟨fun _ => ⟨rfl, rfl⟩, ?_, ?_, ?_⟩
    · intro h; exact absurd h (by omega)
    · intro jj hjj; omega
    · intro jj hjj; omega
  obtain ⟨hmono, hpos, iexit, hie, hor, hall, hwin, hleft⟩ :=
    lcGo_spec cur tgt count count 0 0 0 (by omega) hinv0
  set r := lcGo cur tgt count count 0 0 0 with hr
  have hrrun : lcRun cur tgt = r := by rw [lcRun, hr, hcount]
  rw [hrrun]
  have hbestrun : 1 ≤ r.1 →
      r.2 + r.1 ≤ count ∧
      isCommonRun cur tgt r.2 (List.indexOf (tgt.getD r.2 "") cur) r.1 := by
    intro hl
    obtain ⟨hSi, hScl⟩ := hwin hl
    have hS : r.2 < count := by omega
    obtain ⟨_, hrun⟩ := currentLengthAt_run cur tgt hperm r.2 hS
    rw [hScl] at hrun
    exact ⟨hrun.1, hrun⟩
  have hmax : ∀ i p L2, isCommonRun cur tgt i p L2 → L2 ≤ r.1 := by
    intro i p L2 hrun2
    rcases Nat.eq_zero_or_pos L2 with h0 | hL2
    · omega
    have hic : i < count := by
      have := hrun2.1
      omega
    have hL1 : 1 ≤ r.1 := hpos (by omega)
    by_cases hproc : i < iexit
    · exact le_trans (currentLengthAt_max cur tgt hperm hnd i p L2 hrun2 hL2)
        (hall i hproc)
    · push_neg at hproc
      have hexlt : iexit < count := by omega
      have hhalf : count ≤ 2 * r.1 := by
        rcases hor with h | h
        · omega
        · exact h
      obtain ⟨hSbound, hSrun⟩ := hbestrun hL1
      set S := r.2 with hSdef
      set L := r.1 with hLdef
      set pS := List.indexOf (tgt.getD S "") cur with hpSdef
      have hSi : S < i := by
        have := (hwin hL1).1
        omega
      by_cases hdisj : S + L ≤ i
      · have hb := hrun2.1
        omega
      · push_neg at hdisj
        obtain ⟨hbt2, hbc2, hmt2⟩ := hrun2
        obtain ⟨hbtS, hbcS, hmtS⟩ := hSrun
        have hd0 : tgt[i]? = cur[pS + (i - S)]? := by
          have := hmtS (i - S) (by omega)
          have e : S + (i - S) = i := by omega
          rw [e] at this
          exact this
        have hd1 : tgt[i]? = cur[p]? := by
          have := hmt2 0 (by omega)
          simpa using this
        have hit : i < tgt.length := by omega
        have hsome : tgt[i]? = some tgt[i] := List.getElem?_eq_getElem hit
        have hndc : cur.Nodup := (hperm.nodup_iff).mpr hnd
        have hpeq : p = pS + (i - S) :=
          nodup_getElem?_inj hndc (hd1 ▸ hsome) (hd0 ▸ hsome)
        by_cases hin : i + L2 ≤ S + L
        · omega
        · push_neg at hin
          exfalso
          have hext : isCommonRun cur tgt S pS (L + 1) := by
            refine ⟨by omega, by omega, ?_⟩
            intro d hd
            rcases Nat.lt_succ_iff_lt_or_eq.mp hd with hdlt | hdeq
            · exact hmtS d hdlt
            · subst hdeq
              have := hmt2 (S + L - i) (by omega)
              have e1 : i + (S + L - i) = S + L := by omega
              have e2 : p + (S + L - i) = pS + L := by omega
              rw [e1, e2] at this
              exact this
          have := currentLengthAt_max cur tgt hperm hnd S pS (L + 1) hext (by omega)
          have hScl := (hwin hL1).2
          omega
  refine ⟨fun hne => hpos (by
      rw [hcount]
      cases tgt with
      | nil => exact absurd rfl hne
      | cons a l => simp), hbestrun, hmax, ?_⟩
  intro i p hrun2 hL1
  by_contra hlt
  push_neg at hlt
  have hthis := currentLengthAt_max cur tgt hperm hnd i p r.1 hrun2 hL1
  have hSi : i < iexit := by
    have := (hwin hL1).1
    omega
  have h1 := hleft i hlt
  omega

/-- The front-move phase: inserting each of `ks` (iterated in reverse)
before the first child puts `ks` at the front, in order, with the
remaining children following in their previous relative order. -/
theorem moveFrontAll : ∀ (ks l : List String), ks.Nodup → l.Nodup →
    ks.reverse.foldl (fun acc k => k :: acc.erase k) l =
      ks ++ l.filter (fun x => decide (x ∉ ks)) := by
  intro ks
  induction ks with
  | nil => intro l _ _; simp
  | cons k ks ih =>
      intro l hks hl
      have hknotin : k ∉ ks := (List.nodup_cons.mp hks).1
      have hksnd : ks.Nodup := (List.nodup_cons.mp hks).2
      rw [List.reverse_cons, List.foldl_append, ih l hksnd hl]
      simp only [List.foldl_cons, List.foldl_nil]
      rw [List.erase_append_right _ hknotin, List.cons_append]
      congr 2
      have hfnd : (l.filter (fun x => decide (x ∉ ks))).Nodup := hl.filter _
      rw [List.Nodup.erase_eq_filter hfnd k, List.filter_filter]
      apply List.filter_congr
      intro x _
      by_cases hxk : x = k
      · subst hxk; simp
      · by_cases hxks : x ∈ ks <;> simp [hxk, hxks]

/-- The back-move phase: appending each of `ks` (in order) at the end
puts `ks` at the back, in order, with the remaining children keeping
their previous relative order in front. -/
theorem moveEndAll : ∀ (ks l : List String), ks.Nodup → l.Nodup →
    ks.foldl (fun acc k => acc.erase k ++ [k]) l =
      l.filter (fun x => decide (x ∉ ks)) ++ ks := by
  intro ks
  induction ks with
  | nil => intro l _ _; simp
  | cons k ks ih =>
      intro l hks hl
      have hknotin : k ∉ ks := (List.nodup_cons.mp hks).1
      have hksnd : ks.Nodup := (List.nodup_cons.mp hks).2
      rw [List.foldl_cons]
      have hnd2 : (l.erase k ++ [k]).Nodup := by
        rw [List.Nodup.erase_eq_filter hl k, List.nodup_append]
        refine ⟨hl.filter _, List.nodup_singleton _, ?_⟩
        intro x hx hxk
        simp at hxk
        subst hxk
        have := List.of_mem_filter hx
        simp at this
      rw [ih (l.erase k ++ [k]) hksnd hnd2, List.filter_append]
      have hk1 : ([k].filter (fun x => decide (x ∉ ks))) = [k] := by simp [hknotin]
      rw [hk1, List.Nodup.erase_eq_filter hl k, List.filter_filter, List.append_assoc]
      congr 1
      apply List.filter_congr
      intro x _
      by_cases hxk : x = k
      · subst hxk; simp
      · by_cases hxks : x ∈ ks <;> simp [hxk, hxks]

/-- A contiguous slice is an infix. -/
theorem take_drop_infix (l : List String) (p L : Nat) :
    List.IsInfix ((l.drop p).take L) l := by
  refine ⟨l.take p, l.drop (p + L), ?_⟩
  rw [List.append_assoc]
  rw [show (l.drop p).take L ++ l.drop (p + L) = l.drop p by
    rw [← List.drop_drop]; exact List.take_append_drop _ _]
  exact List.take_append_drop _ _

/-- A common run names the same slice in both sequences. -/
theorem run_segment_eq {cur tgt : List String} {S pS L : Nat}
    (hrun : isCommonRun cur tgt S pS L) :
    (tgt.drop S).take L = (cur.drop pS).take L := by
  obtain ⟨hbt, hbc, hmt⟩ := hrun
  apply List.ext_getElem?
  intro n
  by_cases hn : n < L
  · rw [List.getElem?_take, if_pos hn, List.getElem?_take, if_pos hn,
      List.getElem?_drop, List.getElem?_drop]
    exact hmt n hn
  · rw [List.getElem?_eq_none (by simp [List.length_take]; omega),
      List.getElem?_eq_none (by simp [List.length_take]; omega)]

/-- `longestChain` in terms of the scan result. -/
theorem longestChain_eq (cur tgt : List String) :
    longestChain cur tgt = (((lcRun cur tgt).2 : Int),
      ((lcRun cur tgt).2 : Int) + ((lcRun cur tgt).1 : Int) - 1) := by
  rw [longestChain, lcRun]

/-- C3: for permutations with unique keys, `longestChain` returns a
run of maximal length among all common contiguous runs (the early exit
never misses a strictly longer run), and ties keep the first-found
(leftmost) run. -/
theorem longestChain_maximal_and_leftmost (cur tgt : List String)
    (hperm : cur.Perm tgt) (hnd : tgt.Nodup) :
    (tgt ≠ [] → ∃ p, isCommonRun cur tgt (longestChain cur tgt).1.toNat p
      (((longestChain cur tgt).2 - (longestChain cur tgt).1 + 1).toNat)) ∧
    (∀ i p L2, isCommonRun cur tgt i p L2 →
      L2 ≤ ((longestChain cur tgt).2 - (longestChain cur tgt).1 + 1).toNat) ∧
    (∀ i p, isCommonRun cur tgt i p
        (((longestChain cur tgt).2 - (longestChain cur tgt).1 + 1).toNat) →
      tgt ≠ [] → (longestChain cur tgt).1.toNat ≤ i) := by
  obtain ⟨hpos, hbest, hmax, hleft⟩ := lcRun_core cur tgt hperm hnd
  have he1 : (longestChain cur tgt).1.toNat = (lcRun cur tgt).2 := by
    rw [longestChain_eq]
    omega
  have he2 : ((longestChain cur tgt).2 - (longestChain cur tgt).1 + 1).toNat =
      (lcRun cur tgt).1 := by
    rw [longestChain_eq]
    dsimp only
    omega
  rw [he1, he2]
  refine ⟨?_, hmax, ?_⟩
  · intro hne
    exact ⟨_, (hbest (hpos hne)).2⟩
  · intro i p hrun hne
    exact hleft i p hrun (hpos hne)

/-- Witness for C3 at concrete permutations. -/
theorem longestChain_maximal_and_leftmost_witness :
    List.Perm ["b", "c", "a"] ["a", "b", "c"] ∧ List.Nodup ["a", "b", "c"] ∧
    (∀ i p L2, isCommonRun ["b", "c", "a"] ["a", "b", "c"] i p L2 →
      L2 ≤ ((longestChain ["b", "c", "a"] ["a", "b", "c"]).2 -
        (longestChain ["b", "c", "a"] ["a", "b", "c"]).1 + 1).toNat) :=
  ⟨by decide, by decide,
    (longestChain_maximal_and_leftmost ["b", "c", "a"] ["a", "b", "c"]
      (by decide) (by decide)).2.1⟩

/-- C4 counterexample: on `current = [a,b,c]`, `target = [c,a,b]` the
returned range is `[1, 2]`; positions 1..2 of `current` are `[b,c]`,
which is not a contiguous run of `target`, while positions 1..2 of
`target` are `[a,b]`, which is contiguous in `current`: the range
indexes the second argument, not the first. -/
theorem longestChain_range_not_in_current :
    List.Perm ["a", "b", "c"] ["c", "a", "b"] ∧
    longestChain ["a", "b", "c"] ["c", "a", "b"] = (1, 2) ∧
    ¬ List.IsInfix ((["a", "b", "c"].drop 1).take 2) ["c", "a", "b"] ∧
    List.IsInfix ((["c", "a", "b"].drop 1).take 2) ["a", "b", "c"] := by
  decide

/-- C4 (amended): for permutations of unique keys, the `[start, end]`
range returned by `longestChain(current, target)` is an index range in
`target` (the second argument): the keys at positions `start..end` of
`target` appear, in the same relative order, as a contiguous run in
`current`. -/
theorem longestChain_range_in_target (cur tgt : List String)
    (hperm : cur.Perm tgt) (hnd : tgt.Nodup) (hne : tgt ≠ []) :
    0 ≤ (longestChain cur tgt).1 ∧
    (longestChain cur tgt).1 ≤ (longestChain cur tgt).2 ∧
    (longestChain cur tgt).2 < (tgt.length : Int) ∧
    List.IsInfix
      ((tgt.drop (longestChain cur tgt).1.toNat).take
        (((longestChain cur tgt).2 - (longestChain cur tgt).1 + 1).toNat)) cur := by
  obtain ⟨hpos, hbest, hmax, hleft⟩ := lcRun_core cur tgt hperm hnd
  have hL1 := hpos hne
  obtain ⟨hSL, hrun⟩ := hbest hL1
  have he1 : (longestChain cur tgt).1.toNat = (lcRun cur tgt).2 := by
    rw [longestChain_eq]
    omega
  have he2 : ((longestChain cur tgt).2 - (longestChain cur tgt).1 + 1).toNat =
      (lcRun cur tgt).1 := by
    rw [longestChain_eq]
    dsimp only
    omega
  rw [he1, he2, longestChain_eq]
  refine ⟨by dsimp only; omega, by dsimp only; omega, by dsimp only; omega, ?_⟩
  rw [run_segment_eq hrun]
  exact take_drop_infix _ _ _

/-- Witness for C4 (amended) at a concrete input. -/
theorem longestChain_range_in_target_witness :
    List.Perm ["a", "b", "c"] ["c", "a", "b"] ∧ List.Nodup ["c", "a", "b"] ∧
    ["c", "a", "b"] ≠ [] ∧
    List.IsInfix
      ((["c", "a", "b"].drop (longestChain ["a", "b", "c"] ["c", "a", "b"]).1.toNat).take
        (((longestChain ["a", "b", "c"] ["c", "a", "b"]).2 -
          (longestChain ["a", "b", "c"] ["c", "a", "b"]).1 + 1).toNat))
      ["a", "b", "c"] :=
  ⟨by decide, by decide, by decide,
    (longestChain_range_in_target ["a", "b", "c"] ["c", "a", "b"]
      (by decide) (by decide) (by decide)).2.2.2⟩

/-- C2 counterexample: with duplicate keys the claim fails.  The
sequences `[a,b,a]` and `[a,a,b]` are permutations of each other and
share the matching adjacent pair `(a,b)`, yet the two move phases leave
the live order unchanged at `[a,b,a]` instead of producing the target
`[a,a,b]`. -/
theorem reorder_fails_on_duplicate_keys :
    List.Perm ["a", "b", "a"] ["a", "a", "b"] ∧
    hasMatchingAdjacentPair ["a", "b", "a"] ["a", "a", "b"] ∧
    reorderChildren ["a", "b", "a"] ["a", "a", "b"] = ["a", "b", "a"] ∧
    reorderChildren ["a", "b", "a"] ["a", "a", "b"] ≠ ["a", "a", "b"] := by
  decide

/-- C2 (amended): for permutations of each other with unique keys, the
returned range is non-empty whenever the two sequences share a matching
adjacent pair (indeed whenever they are non-empty), and the two
boundary move phases transform the live child order exactly into the
target order. -/
theorem reorder_moves_restore_target (cur tgt : List String)
    (hperm : cur.Perm tgt) (hnd : tgt.Nodup) :
    (hasMatchingAdjacentPair cur tgt →
      (longestChain cur tgt).1 ≤ (longestChain cur tgt).2) ∧
    reorderChildren cur tgt = tgt := by
  obtain ⟨hpos, hbest, hmax, hleft⟩ := lcRun_core cur tgt hperm hnd
  constructor
  · intro hpair
    obtain ⟨i, hi, _⟩ := hpair
    have hne : tgt ≠ [] := by
      intro h
      rw [h] at hi
      simp at hi
    have hL := hpos hne
    rw [longestChain_eq]
    dsimp only
    omega
  · by_cases hne : tgt = []
    · subst hne
      have hc : cur = [] := hperm.eq_nil
      subst hc
      decide
    · have hL1 := hpos hne
      obtain ⟨hSL, hrun⟩ := hbest hL1
      have hndc : cur.Nodup := (hperm.nodup_iff).mpr hnd
      set S := (lcRun cur tgt).2 with hSdef
      set L := (lcRun cur tgt).1 with hLdef
      set pS := List.indexOf (tgt.getD S "") cur with hpSdef
      have hbc : pS + L ≤ cur.length := hrun.2.1
      have he1 : (longestChain cur tgt).1.toNat = S := by
        rw [longestChain_eq]
        omega
      have he2 : ((longestChain cur tgt).2 + 1).toNat = S + L := by
        rw [longestChain_eq]
        dsimp only
        omega
      rw [reorderChildren]
      rw [he1, he2]
      set chain := (tgt.drop S).take L with hchain
      have hdecomp : tgt = tgt.take S ++ (chain ++ tgt.drop (S + L)) := by
        rw [hchain, show (tgt.drop S).take L ++ tgt.drop (S + L) = tgt.drop S from by
          rw [← List.drop_drop]; exact List.take_append_drop _ _]
        rw [List.take_append_drop]
      have hndall : (tgt.take S ++ (chain ++ tgt.drop (S + L))).Nodup := by
        rw [← hdecomp]
        exact hnd
      rw [List.nodup_append] at hndall
      obtain ⟨hnd1, hndrest, hdisj1⟩ := hndall
      rw [List.nodup_append] at hndrest
      obtain ⟨hndchain, hnd3, hdisj23⟩ := hndrest
      rw [moveFrontAll _ _ hnd1 hndc]
      have hndafter : (tgt.take S ++
          cur.filter (fun x => decide (x ∉ tgt.take S))).Nodup := by
        rw [List.nodup_append]
        refine ⟨hnd1, hndc.filter _, ?_⟩
        intro x hx1 hx2
        have := List.of_mem_filter hx2
        simp at this
        exact this hx1
      rw [moveEndAll _ _ hnd3 hndafter, List.filter_append]
      have hA : (tgt.take S).filter (fun x => decide (x ∉ tgt.drop (S + L))) =
          tgt.take S := by
        apply List.filter_eq_self.mpr
        intro x hx
        simp only [decide_eq_true_eq]
        intro hx2
        exact hdisj1 hx (List.mem_append.mpr (Or.inr hx2))
      have hB : (cur.filter (fun x => decide (x ∉ tgt.take S))).filter
          (fun x => decide (x ∉ tgt.drop (S + L))) =
          cur.filter (fun x => decide (x ∈ chain)) := by
        rw [List.filter_filter]
        apply List.filter_congr
        intro x hx
        have hxt : x ∈ tgt := hperm.mem_iff.mp hx
        rw [hdecomp] at hxt
        rcases List.mem_append.mp hxt with hx1 | hx23
        · have hnc : x ∉ chain := fun hc =>
            hdisj1 hx1 (List.mem_append.mpr (Or.inl hc))
          simp [hx1, hnc]
        · rcases List.mem_append.mp hx23 with hx2 | hx3
          · have hn1 : x ∉ tgt.take S := fun h1 =>
              hdisj1 h1 (List.mem_append.mpr (Or.inl hx2))
            have hn3 : x ∉ tgt.drop (S + L) := fun h3 => hdisj23 hx2 h3
            simp [hx2, hn1, hn3]
          · have hnc : x ∉ chain := fun hc => hdisj23 hc hx3
            simp [hx3, hnc]
      have hC : cur.filter (fun x => decide (x ∈ chain)) = chain := by
        have hseg : chain = (cur.drop pS).take L := by
          rw [hchain]
          exact run_segment_eq hrun
        have hcdecomp : cur = cur.take pS ++ ((cur.drop pS).take L ++
            cur.drop (pS + L)) := by
          rw [show (cur.drop pS).take L ++ cur.drop (pS + L) = cur.drop pS from by
            rw [← List.drop_drop]; exact List.take_append_drop _ _]
          rw [List.take_append_drop]
        have hndcall : (cur.take pS ++ ((cur.drop pS).take L ++
            cur.drop (pS + L))).Nodup := by
          rw [← hcdecomp]
          exact hndc
        rw [List.nodup_append] at hndcall
        obtain ⟨gnd1, gndrest, gdisj1⟩ := hndcall
        rw [List.nodup_append] at gndrest
        obtain ⟨gnd2, gnd3, gdisj23⟩ := gndrest
        conv_lhs => rw [hcdecomp]
        rw [List.filter_append, List.filter_append]
        have hc1 : (cur.take pS).filter (fun x => decide (x ∈ chain)) = [] := by
          rw [List.filter_eq_nil_iff]
          intro x hx
          simp only [decide_eq_true_eq]
          intro hxc
          rw [hseg] at hxc
          exact gdisj1 hx (List.mem_append.mpr (Or.inl hxc))
        have hc2 : ((cur.drop pS).take L).filter (fun x => decide (x ∈ chain)) =
            (cur.drop pS).take L := by
          apply List.filter_eq_self.mpr
          intro x hx
          simp only [decide_eq_true_eq]
          rw [hseg]
          exact hx
        have hc3 : (cur.drop (pS + L)).filter (fun x => decide (x ∈ chain)) = [] := by
          rw [List.filter_eq_nil_iff]
          intro x hx
          simp only [decide_eq_true_eq]
          intro hxc
          rw [hseg] at hxc
          exact gdisj23 hxc hx
        rw [hc1, hc2, hc3, hseg]
        simp
      rw [hA, hB, hC, List.append_assoc, ← hdecomp]

/-- Witness for C2 (amended) at a concrete permutation. -/
theorem reorder_moves_restore_target_witness :
    List.Perm ["b", "c", "a"] ["a", "b", "c"] ∧ List.Nodup ["a", "b", "c"] ∧
    reorderChildren ["b", "c", "a"] ["a", "b", "c"] = ["a", "b", "c"] :=
  ⟨by decide, by decide,
    (reorder_moves_restore_target ["b", "c", "a"] ["a", "b", "c"]
      (by decide) (by decide)).2⟩

/-! ## The shallow attribute `diff`

Two variants appear in the repository.  `src/src/utils.js` (lines
287-307) `continue`s after pushing a key whose value is a function; the
bundle `src/dist/lite.js` (lines 769-784) lacks the `continue`, so a
key with a function value that also fails the `!==` test is pushed
twice. -/

/-- An attribute value: JS scalars compared by value, functions
compared by reference (identified here by a numeric id). -/
inductive Attr where
  | str (s : String) : Attr
  | num (n : Int) : Attr
  | boolean (b : Bool) : Attr
  | null : Attr
  | fn (id : Nat) : Attr
  deriving DecidableEq, Repr

/-- `isFunction` on a property read (`undefined` is not a function). -/
def isFunctionOpt : Option Attr → Bool
  | some (.fn _) => true
  | _ => false

/-- `Object.keys(Object.assign({}, a, b))` for maps with unique keys:
the keys of `a` in order, then the keys of `b` not in `a`, in order. -/
def jsUnionKeys {β : Type} (a b : List (String × β)) : List String :=
  a.map Prod.fst ++ (b.map Prod.fst).filter (fun k => decide (k ∉ a.map Prod.fst))

/-- `diff` as in `src/src/utils.js` lines 287-307: a function value on
either side pushes the key and `continue`s; otherwise a `!==` pair
pushes the key. -/
def diffSrc (original successor : List (String × Attr)) : List String :=
  (jsUnionKeys original successor).foldl
    (fun modifiedKeys key =>
      let valueOriginal := jsLookup original key
      let valueSuccessor := jsLookup successor key
      if isFunctionOpt valueOriginal || isFunctionOpt valueSuccessor then
        modifiedKeys ++ [key]
      else if valueOriginal ≠ valueSuccessor then modifiedKeys ++ [key]
      else modifiedKeys) []

/-- `diff` as bundled in `src/dist/lite.js` lines 769-784: no
`continue`, so after the function-value push the `!==` test still
runs and can push the same key again. -/
def diffLite (original successor : List (String × Attr)) : List String :=
  (jsUnionKeys original successor).foldl
    (fun modifiedKeys key =>
      let valueOriginal := jsLookup original key
      let valueSuccessor := jsLookup successor key
      let m1 := if isFunctionOpt valueOriginal || isFunctionOpt valueSuccessor then
        modifiedKeys ++ [key] else modifiedKeys
      if valueOriginal ≠ valueSuccessor then m1 ++ [key] else m1) []

/-- Collapse consecutive duplicates. -/
def dedupAdjacent : List String → List String
  | [] => []
  | a :: rest => a :: dedupAdjacent (rest.dropWhile (fun x => x = a))
termination_by l => l.length
decreasing_by
  have : (rest.dropWhile (fun x => decide (x = a))).length ≤ rest.length := by
    induction rest with
    | nil => simp [List.dropWhile]
    | cons b t ih =>
        rw [List.dropWhile]
        cases decide (b = a)
        · simp
        · simp
          omega
  simp only [List.length_cons]
  omega

/-- Per-key contribution of `diffSrc`. -/
def diffStepSrc (o s : List (String × Attr)) (key : String) : List String :=
  if isFunctionOpt (jsLookup o key) || isFunctionOpt (jsLookup s key) then [key]
  else if jsLookup o key ≠ jsLookup s key then [key]
  else []

/-- Per-key contribution of `diffLite`. -/
def diffStepLite (o s : List (String × Attr)) (key : String) : List String :=
  (if isFunctionOpt (jsLookup o key) || isFunctionOpt (jsLookup s key) then [key]
    else []) ++
  (if jsLookup o key ≠ jsLookup s key then [key] else [])

/-- `diffSrc` output is the concatenation of its per-key parts. -/
theorem diffSrc_flat (o s : List (String × Attr)) :
    diffSrc o s = ((jsUnionKeys o s).map (diffStepSrc o s)).flatten := by
  rw [diffSrc]
  have h : ∀ (keys : List String) (acc : List String),
      keys.foldl
        (fun modifiedKeys key =>
          let valueOriginal := jsLookup o key
          let valueSuccessor := jsLookup s key
          if isFunctionOpt valueOriginal || isFunctionOpt valueSuccessor then
            modifiedKeys ++ [key]
          else if valueOriginal ≠ valueSuccessor then modifiedKeys ++ [key]
          else modifiedKeys) acc = acc ++ (keys.map (diffStepSrc o s)).flatten := by
    intro keys
    induction keys with
    | nil => intro acc; simp
    | cons k rest ih =>
        intro acc
        rw [List.foldl_cons, ih, List.map_cons, List.flatten_cons]
        rw [diffStepSrc]
        dsimp only
        by_cases h1 : isFunctionOpt (jsLookup o k) || isFunctionOpt (jsLookup s k)
        · rw [if_pos h1, if_pos h1, List.append_assoc]
        · rw [if_neg h1, if_neg h1]
          by_cases h2 : jsLookup o k ≠ jsLookup s k
          · rw [if_pos h2, if_pos h2, List.append_assoc]
          · rw [if_neg h2, if_neg h2]
            simp
  rw [h]
  simp

/-- `diffLite` output is the concatenation of its per-key parts. -/
theorem diffLite_flat (o s : List (String × Attr)) :
    diffLite o s = ((jsUnionKeys o s).map (diffStepLite o s)).flatten := by
  rw [diffLite]
  have h : ∀ (keys : List String) (acc : List String),
      keys.foldl
        (fun modifiedKeys key =>
          let valueOriginal := jsLookup o key
          let valueSuccessor := jsLookup s key
          let m1 := if isFunctionOpt valueOriginal || isFunctionOpt valueSuccessor then
            modifiedKeys ++ [key] else modifiedKeys
          if valueOriginal ≠ valueSuccessor then m1 ++ [key] else m1) acc =
        acc ++ (keys.map (diffStepLite o s)).flatten := by
    intro keys
    induction keys with
    | nil => intro acc; simp
    | cons k rest ih =>
        intro acc
        rw [List.foldl_cons, ih, List.map_cons, List.flatten_cons]
        rw [diffStepLite]
        dsimp only
        by_cases h1 : isFunctionOpt (jsLookup o k) || isFunctionOpt (jsLookup s k)
        · rw [if_pos h1, if_pos h1]
          by_cases h2 : jsLookup o k ≠ jsLookup s k
          · rw [if_pos h2, if_pos h2]
            simp
          · rw [if_neg h2, if_neg h2]
            simp
        · rw [if_neg h1, if_neg h1]
          by_cases h2 : jsLookup o k ≠ jsLookup s k
          · rw [if_pos h2, if_pos h2]
            simp
          · rw [if_neg h2, if_neg h2]
            simp
  rw [h]
  simp

/-- `dropWhile` does nothing when no element satisfies the test. -/
theorem dropWhile_eq_self_of_ne {k : String} :
    ∀ {l : List String}, (∀ x ∈ l, x ≠ k) → l.dropWhile (fun x => x = k) = l := by
  intro l h
  cases l with
  | nil => rfl
  | cons a t =>
      rw [List.dropWhile_cons]
      have : decide (a = k) = false := by
        simp
        exact h a (List.mem_cons_self _ _)
      rw [this]
      simp

/-- Every element of a per-key contribution is the key itself. -/
theorem diffStepLite_subset {o s : List (String × Attr)} {k x : String}
    (h : x ∈ diffStepLite o s k) : x = k := by
  rw [diffStepLite] at h
  rcases List.mem_append.mp h with h1 | h1
  · split at h1
    · simp at h1; exact h1
    · cases h1
  · split at h1
    · simp at h1; exact h1
    · cases h1

/-- Elements of the concatenated lite contributions come from the keys. -/
theorem flatten_lite_mem {o s : List (String × Attr)} {rest : List String} {x : String}
    (h : x ∈ (rest.map (diffStepLite o s)).flatten) : x ∈ rest := by
  rw [List.mem_flatten] at h
  obtain ⟨t, ht, hx⟩ := h
  rw [List.mem_map] at ht
  obtain ⟨k, hk, rfl⟩ := ht
  rw [diffStepLite_subset hx]
  exact hk

/-- Over duplicate-free keys, collapsing adjacent duplicates in the
lite output yields the src output. -/
theorem dedupAdjacent_flat (o s : List (String × Attr)) :
    ∀ (keys : List String), keys.Nodup →
      dedupAdjacent ((keys.map (diffStepLite o s)).flatten) =
        (keys.map (diffStepSrc o s)).flatten := by
  intro keys
  induction keys with
  | nil =>
      intro _
      simp [dedupAdjacent]
  | cons k rest ih =>
      intro hnd
      rw [List.nodup_cons] at hnd
      obtain ⟨hk, hndr⟩ := hnd
      rw [List.map_cons, List.flatten_cons, List.map_cons, List.flatten_cons]
      have hdw : ((rest.map (diffStepLite o s)).flatten).dropWhile (fun x => x = k) =
          (rest.map (diffStepLite o s)).flatten := by
        apply dropWhile_eq_self_of_ne
        intro x hx he
        subst he
        exact hk (flatten_lite_mem hx)
      rw [diffStepSrc, diffStepLite]
      by_cases h1 : isFunctionOpt (jsLookup o k) || isFunctionOpt (jsLookup s k)
      · rw [if_pos h1, if_pos h1]
        by_cases h2 : jsLookup o k ≠ jsLookup s k
        · rw [if_pos h2]
          show dedupAdjacent (k :: k :: (rest.map (diffStepLite o s)).flatten) = _
          rw [dedupAdjacent]
          rw [show (k :: (rest.map (diffStepLite o s)).flatten).dropWhile
              (fun x => x = k) =
              ((rest.map (diffStepLite o s)).flatten).dropWhile (fun x => x = k) from by
            rw [List.dropWhile_cons]
            simp]
          rw [hdw, ih hndr]
          rfl
        · rw [if_neg h2]
          show dedupAdjacent (k :: (rest.map (diffStepLite o s)).flatten) = _
          rw [dedupAdjacent, hdw, ih hndr]
          rfl
      · rw [if_neg h1, if_neg h1]
        by_cases h2 : jsLookup o k ≠ jsLookup s k
        · rw [if_pos h2]
          show dedupAdjacent (k :: (rest.map (diffStepLite o s)).flatten) = _
          rw [dedupAdjacent, hdw, ih hndr]
          rfl
        · rw [if_neg h2]
          show dedupAdjacent ((rest.map (diffStepLite o s)).flatten) = _
          rw [ih hndr]
          rfl

/-- C9 counterexample: on an attribute map holding a function value,
the two `diff` variants disagree — the src version pushes the key once,
the lite bundle pushes it twice. -/
theorem diff_variants_disagree :
    diffSrc [("a", Attr.fn 0)] [] = ["a"] ∧
    diffLite [("a", Attr.fn 0)] [] = ["a", "a"] ∧
    diffSrc [("a", Attr.fn 0)] [] ≠ diffLite [("a", Attr.fn 0)] [] := by
  decide

/-- C9 (amended): for attribute maps with unique keys, the two `diff`
variants return the same keys in the same order, except that the lite
bundle lists a key twice in a row exactly when a function value is
involved and the `!==` test also fires; collapsing adjacent duplicates
in the lite output yields the src output. -/
theorem diffSrc_eq_dedupAdjacent_diffLite (o s : List (String × Attr))
    (hno : (o.map Prod.fst).Nodup) (hns : (s.map Prod.fst).Nodup) :
    diffSrc o s = dedupAdjacent (diffLite o s) := by
  rw [diffSrc_flat, diffLite_flat]
  have hnd : (jsUnionKeys o s).Nodup := by
    rw [jsUnionKeys, List.nodup_append]
    refine ⟨hno, hns.filter _, ?_⟩
    intro x hx1 hx2
    have h3 := List.of_mem_filter hx2
    rw [decide_eq_true_eq] at h3
    exact h3 hx1
  exact (dedupAdjacent_flat o s (jsUnionKeys o s) hnd).symm

/-- Witness for C9 (amended) at concrete attribute maps. -/
theorem diffSrc_eq_dedupAdjacent_diffLite_witness :
    List.Nodup ([("a", Attr.fn 0), ("b", Attr.str "x")].map Prod.fst) ∧
    List.Nodup ([("b", Attr.str "y")].map Prod.fst) ∧
    diffSrc [("a", Attr.fn 0), ("b", Attr.str "x")] [("b", Attr.str "y")] =
      dedupAdjacent
        (diffLite [("a", Attr.fn 0), ("b", Attr.str "x")] [("b", Attr.str "y")]) :=
  ⟨by decide, by decide,
    diffSrc_eq_dedupAdjacent_diffLite _ _ (by decide) (by decide)⟩

/-! ## The vdom updater `_update` (`src/dist/lite.js` lines 837-948)

The recursive updater is modelled as a pure function from the
(original, successor) pair to the evolved vdom node and the list of
host mutations it performs, in order.  Host mutations are: appending a
freshly rendered node, removing a node, replacing a node on tagName
mismatch, writing a text node's value, writing one attribute on the
host node, and the two reorder move kinds. -/

/-- A canonical tree node: text or element with attributes, keyed
children and a child order. -/
inductive VNode where
  | text (value : String) : VNode
  | elem (tagName : String) (attributes : List (String × Attr))
      (children : List (String × VNode)) (childOrder : List String) : VNode

/-- One host mutation performed by `_update`/`render`. -/
inductive HostOp where
  | appendNew (key : String) : HostOp
  | removeNode (key : String) : HostOp
  | replaceNode (key : String) : HostOp
  | setTextValue (value : String) : HostOp
  | setAttribute (key : String) : HostOp
  | moveFront (key : String) : HostOp
  | moveEnd (key : String) : HostOp
  deriving DecidableEq, Repr

/-- `original.attributes[key] = successor.attributes[key]`: overwrite
or add the binding; when the successor lacks the key the property is
set to `undefined`, observationally (for lookups and `diff`) a
removal. -/
def jsAssign (m : List (String × Attr)) (k : String) : Option Attr → List (String × Attr)
  | some v =>
    if (jsLookup m k).isSome then m.map (fun kv => if kv.1 = k then (k, v) else kv)
    else m ++ [(k, v)]
  | none => m.filter (fun kv => decide (kv.1 ≠ k))

/-- The body of the child-union loop of `_update` (lines 901-911): for
each key, new children are appended to the live order, deleted children
are spliced out of it, and the child pair is updated recursively. -/
def updateChildStep (upd : Option VNode → Option VNode → String → Option VNode × List HostOp)
    (co cs2 : List (String × VNode))
    (acc : List String × List (String × VNode) × List HostOp) (k : String) :
    List String × List (String × VNode) × List HostOp :=
  let oc := jsLookup co k
  let sc := jsLookup cs2 k
  let order1 := if oc.isNone then acc.1 ++ [k]
    else if sc.isNone then acc.1.erase k else acc.1
  let r := upd oc sc k
  let children1 := match r.1 with
    | none => acc.2.1
    | some c => acc.2.1 ++ [(k, c)]
  (order1, children1, acc.2.2 ++ r.2)

/-- `_update(original, successor, parent, parentKey)` with recursion
fuel (the JS recursion is bounded by the tree height): returns the
evolved node (the in-place mutation of the original) and the host
operations performed.  Branches in source order: absent original →
render and append; absent successor → remove; tagName mismatch
(including text/element changes) → replace; text nodes → value write;
elements → attribute diff writes, recursive child update, then the two
reorder move phases around the longest chain. -/
def updateVNode : Nat → Option VNode → Option VNode → String → Option VNode × List HostOp
  | 0, o, _, _ => (o, [])
  | _+1, none, none, _ => (none, [])
  | _+1, none, some s, pk => (some s, [HostOp.appendNew pk])
  | _+1, some _, none, pk => (none, [HostOp.removeNode pk])
  | fuel+1, some o, some s, pk =>
    match o, s with
    | VNode.text vo, VNode.text vs =>
      if vo ≠ vs then (some (VNode.text vs), [HostOp.setTextValue vs])
      else (some (VNode.text vo), [])
    | VNode.elem t1 ao co ordo, VNode.elem t2 as2 cs2 ords2 =>
      if t1 ≠ t2 then (some (VNode.elem t2 as2 cs2 ords2), [HostOp.replaceNode pk])
      else
        let adiff := diffLite ao as2
        let ao2 := adiff.foldl (fun m k => jsAssign m k (jsLookup as2 k)) ao
        let childKeys := jsUnionKeys co cs2
        let acc := childKeys.foldl
          (updateChildStep (fun oc sc k2 => updateVNode fuel oc sc k2) co cs2)
          (ordo, [], [])
        let ops := adiff.map HostOp.setAttribute ++ acc.2.2
        if acc.1.isEmpty then (some (VNode.elem t1 ao2 acc.2.1 ords2), ops)
        else
          let r2 := longestChain acc.1 ords2
          let startKeys := ords2.take r2.1.toNat
          let endKeys := ords2.drop (r2.2 + 1).toNat
          (some (VNode.elem t1 ao2 acc.2.1 ords2),
            ops ++ startKeys.reverse.map HostOp.moveFront ++
              endKeys.map HostOp.moveEnd)
    | _, s2 => (some s2, [HostOp.replaceNode pk])

mutual

/-- Well-formedness: sibling keys are unique, recursively. -/
def vnodeWFb : VNode → Bool
  | VNode.text _ => true
  | VNode.elem _ _ children _ =>
    decide ((children.map Prod.fst).Nodup) && vnodeChildrenWFb children
termination_by v => sizeOf v

/-- Well-formedness of a children map. -/
def vnodeChildrenWFb : List (String × VNode) → Bool
  | [] => true
  | (_, c) :: rest => vnodeWFb c && vnodeChildrenWFb rest
termination_by l => sizeOf l

end

/-- Whether an attribute value is a function. -/
def attrIsFn : Attr → Bool
  | Attr.fn _ => true
  | _ => false

mutual

/-- No attribute anywhere in the tree holds a function value. -/
def noFnAttrsB : VNode → Bool
  | VNode.text _ => true
  | VNode.elem _ attributes children _ =>
    attributes.all (fun kv => !attrIsFn kv.2) && noFnChildrenB children
termination_by v => sizeOf v

/-- The same check over a children map. -/
def noFnChildrenB : List (String × VNode) → Bool
  | [] => true
  | (_, c) :: rest => noFnAttrsB c && noFnChildrenB rest
termination_by l => sizeOf l

end

mutual

/-- Height of a vdom node, a sufficient recursion fuel. -/
def vheight : VNode → Nat
  | VNode.text _ => 1
  | VNode.elem _ _ children _ => 1 + vheightChildren children
termination_by v => sizeOf v

/-- Maximal height in a children map. -/
def vheightChildren : List (String × VNode) → Nat
  | [] => 0
  | (_, c) :: rest => max (vheight c) (vheightChildren rest)
termination_by l => sizeOf l

end

/-- Heights are positive. -/
theorem vheight_pos (T : VNode) : 1 ≤ vheight T := by
  cases T with
  | text v => simp [vheight]
  | elem t a c o => simp [vheight]

/-- A child's height is bounded by the children map's height. -/
theorem vheight_child_le :
    ∀ (children : List (String × VNode)) (kv : String × VNode), kv ∈ children →
      vheight kv.2 ≤ vheightChildren children := by
  intro children
  induction children with
  | nil => intro kv hkv; cases hkv
  | cons hd rest ih =>
      intro kv hkv
      obtain ⟨k, c⟩ := hd
      rw [vheightChildren]
      rcases List.mem_cons.mp hkv with hh | hh
      · subst hh
        exact le_max_left _ _
      · exact le_trans (ih kv hh) (le_max_right _ _)

/-- The union of a key set with itself is the key set. -/
theorem jsUnionKeys_self {β : Type} (m : List (String × β)) :
    jsUnionKeys m m = m.map Prod.fst := by
  rw [jsUnionKeys]
  rw [show (m.map Prod.fst).filter (fun k => decide (k ∉ m.map Prod.fst)) = [] from by
    rw [List.filter_eq_nil_iff]
    intro x hx
    simp [hx]]
  simp

/-- `isFunction` of a present value. -/
theorem isFunctionOpt_some (a : Attr) : isFunctionOpt (some a) = attrIsFn a := by
  cases a <;> rfl

/-- A concatenation of empty lists is empty. -/
theorem flatten_map_eq_nil {α : Type} (g : α → List String) :
    ∀ (l : List α), (∀ k ∈ l, g k = []) → (l.map g).flatten = [] := by
  intro l
  induction l with
  | nil => intro _; rfl
  | cons a rest ih =>
      intro h
      rw [List.map_cons, List.flatten_cons, h a (List.mem_cons_self _ _),
        ih (fun x hx => h x (List.mem_cons_of_mem _ hx))]
      rfl

/-- Diffing a function-free attribute map against itself yields no
modified keys. -/
theorem diffLite_self (ao : List (String × Attr))
    (hnofn : ao.all (fun kv => !attrIsFn kv.2) = true) :
    diffLite ao ao = [] := by
  rw [diffLite_flat]
  apply flatten_map_eq_nil
  intro k _
  have h1 : (isFunctionOpt (jsLookup ao k) || isFunctionOpt (jsLookup ao k)) = false := by
    cases hl : jsLookup ao k with
    | none => rfl
    | some a =>
        have hm := jsLookup_mem hl
        have h2 := (List.all_eq_true.mp hnofn) (k, a) hm
        simp at h2
        rw [isFunctionOpt_some]
        simp [h2]
  rw [diffStepLite, h1]
  simp

/-- The inner loop of `longestChain` on two identical arrays counts
every remaining step. -/
theorem chainExtend_self (l : List String) :
    ∀ (steps inc : Nat), chainExtend l l 0 0 inc steps = steps := by
  intro steps
  induction steps with
  | zero => intro inc; rfl
  | succ steps ih =>
      intro inc
      rw [chainExtend]
      rw [if_pos (by
        rw [show ((0 + inc : Nat) : Int) = (0 : Int) + (inc : Int) by push_cast; ring])]
      rw [ih]
      omega

/-- `longestChain` of a non-empty order against itself is the full
range: the first iteration matches everything and exits early. -/
theorem longestChain_self (l : List String) (hne : l ≠ []) :
    longestChain l l = (0, (l.length : Int) - 1) := by
  obtain ⟨a, t, rfl⟩ : ∃ a t, l = a :: t := by
    cases l with
    | nil => exact absurd rfl hne
    | cons a t => exact ⟨a, t, rfl⟩
  have hidx : jsIndexOf (a :: t) ((a :: t).getD 0 "") = ((0 : Nat) : Int) := by
    rw [show (a :: t).getD 0 "" = a from rfl, jsIndexOf,
      if_pos (List.mem_cons_self a t), List.indexOf_cons_self]
  have hcl : currentLengthAt (a :: t) (a :: t) 0 = t.length + 1 := by
    rw [currentLengthAt]
    simp only [hidx, Nat.cast_zero, List.length_cons, sub_zero, min_self]
    rw [show (((t.length + 1 : Nat) : Int) - 1).toNat = t.length from by omega]
    rw [chainExtend_self]
    omega
  rw [longestChain]
  simp only [List.length_cons]
  rw [lcGo, if_neg (by omega)]
  dsimp only
  rw [hcl, if_pos (by omega : 0 < t.length + 1), if_pos (by omega)]
  refine Prod.ext ?_ ?_
  · simp
  · simp

/-- When every child updates to itself with no operations, the
child-union loop leaves the live order untouched, rebuilds the same
children map, and emits no operations. -/
theorem updateChildren_id (fuel : Nat) (m : List (String × VNode)) :
    ∀ (cs : List (String × VNode)) (acc1 : List String) (acc2 : List (String × VNode))
      (acc3 : List HostOp),
      (∀ kv ∈ cs, jsLookup m kv.1 = some kv.2 ∧
        updateVNode fuel (some kv.2) (some kv.2) kv.1 = (some kv.2, [])) →
      (cs.map Prod.fst).foldl
        (updateChildStep (fun oc sc k2 => updateVNode fuel oc sc k2) m m)
        (acc1, acc2, acc3) = (acc1, acc2 ++ cs, acc3) := by
  intro cs
  induction cs with
  | nil => intro acc1 acc2 acc3 _; simp
  | cons kv rest ih =>
      intro acc1 acc2 acc3 h
      obtain ⟨hk, hu⟩ := h kv (List.mem_cons_self _ _)
      obtain ⟨k, c⟩ := kv
      rw [List.map_cons, List.foldl_cons]
      rw [show updateChildStep (fun oc sc k2 => updateVNode fuel oc sc k2) m m
          (acc1, acc2, acc3) k = (acc1, acc2 ++ [(k, c)], acc3) from by
        rw [updateChildStep]
        dsimp only
        rw [hk]
        rw [hu]
        simp]
      rw [ih (acc1) (acc2 ++ [(k, c)]) acc3
        (fun x hx => h x (List.mem_cons_of_mem _ hx))]
      rw [List.append_assoc]
      rfl

/-- Children of a well-formed map are well-formed. -/
theorem vnodeChildrenWFb_mem :
    ∀ {cs : List (String × VNode)}, vnodeChildrenWFb cs = true →
      ∀ kv ∈ cs, vnodeWFb kv.2 = true := by
  intro cs
  induction cs with
  | nil => intro _ kv hkv; cases hkv
  | cons hd rest ih =>
      intro h kv hkv
      obtain ⟨k, c⟩ := hd
      rw [vnodeChildrenWFb, Bool.and_eq_true] at h
      rcases List.mem_cons.mp hkv with hh | hh
      · subst hh; exact h.1
      · exact ih h.2 kv hh

/-- Children of a function-free map are function-free. -/
theorem noFnChildrenB_mem :
    ∀ {cs : List (String × VNode)}, noFnChildrenB cs = true →
      ∀ kv ∈ cs, noFnAttrsB kv.2 = true := by
  intro cs
  induction cs with
  | nil => intro _ kv hkv; cases hkv
  | cons hd rest ih =>
      intro h kv hkv
      obtain ⟨k, c⟩ := hd
      rw [noFnChildrenB, Bool.and_eq_true] at h
      rcases List.mem_cons.mp hkv with hh | hh
      · subst hh; exact h.1
      · exact ih h.2 kv hh

/-- C1 (amended): reconciling a well-formed tree whose attributes hold
no function values against itself performs zero host mutations (and
leaves the tree unchanged), for any sufficient recursion fuel. -/
theorem reconcile_self_no_host_ops :
    ∀ (fuel : Nat) (T : VNode) (pk : String),
      vnodeWFb T = true → noFnAttrsB T = true → vheight T ≤ fuel →
      updateVNode fuel (some T) (some T) pk = (some T, []) := by
  intro fuel
  induction fuel with
  | zero =>
      intro T pk _ _ hh
      have := vheight_pos T
      omega
  | succ fuel ih =>
      intro T pk hwf hnofn hh
      cases T with
      | text v =>
          rw [updateVNode]
          rw [if_neg (fun h => h rfl)]
      | elem t1 ao co ordo =>
          rw [vnodeWFb, Bool.and_eq_true] at hwf
          obtain ⟨hndb, hcwf⟩ := hwf
          have hnd : (co.map Prod.fst).Nodup := of_decide_eq_true hndb
          rw [noFnAttrsB, Bool.and_eq_true] at hnofn
          obtain ⟨hattr, hcnofn⟩ := hnofn
          rw [vheight] at hh
          have hhc : vheightChildren co ≤ fuel := by omega
          have hchild : ∀ kv ∈ co, jsLookup co kv.1 = some kv.2 ∧
              updateVNode fuel (some kv.2) (some kv.2) kv.1 = (some kv.2, []) := by
            intro kv hkv
            refine ⟨jsLookup_of_mem_nodup hnd hkv, ?_⟩
            exact ih kv.2 kv.1 (vnodeChildrenWFb_mem hcwf kv hkv)
              (noFnChildrenB_mem hcnofn kv hkv)
              (le_trans (vheight_child_le co kv hkv) hhc)
          rw [updateVNode]
          dsimp only
          rw [if_neg (fun h => h rfl)]
          rw [diffLite_self ao hattr]
          rw [jsUnionKeys_self]
          rw [updateChildren_id fuel co co ordo [] [] hchild]
          dsimp only
          by_cases hord : ordo.isEmpty
          · rw [if_pos hord]
            simp
          · rw [if_neg hord]
            have hordne : ordo ≠ [] := by
              intro h
              rw [h] at hord
              exact hord rfl
            rw [longestChain_self ordo hordne]
            dsimp only
            rw [show ((0 : Int) : Int).toNat = 0 from rfl]
            rw [show ((ordo.length : Int) - 1 + 1).toNat = ordo.length from by omega]
            rw [List.take_zero, List.drop_length]
            simp

/-- An element whose attributes hold a function value. -/
def c1FnNode : VNode := VNode.elem "div" [("onclick", Attr.fn 0)] [] []

/-- C1 counterexample: reconciling a tree with a function-valued
attribute against the identical tree writes that attribute to the
host (`diff` treats functions as always changed), so at least one host
mutation is performed. -/
theorem reconcile_self_function_attr_mutates :
    (updateVNode 1 (some c1FnNode) (some c1FnNode) "root").2 =
      [HostOp.setAttribute "onclick"] ∧
    (updateVNode 1 (some c1FnNode) (some c1FnNode) "root").2 ≠ ([] : List HostOp) := by
  decide

/-- A function-free well-formed tree for the C1 witness. -/
def c1PlainNode : VNode :=
  VNode.elem "div" [("id", Attr.str "x")] [("0", VNode.text "hi")] ["0"]

/-- Witness for C1 (amended) at a concrete tree. -/
theorem reconcile_self_no_host_ops_witness :
    vnodeWFb c1PlainNode = true ∧ noFnAttrsB c1PlainNode = true ∧
    vheight c1PlainNode ≤ 2 ∧
    updateVNode 2 (some c1PlainNode) (some c1PlainNode) "root" = (some c1PlainNode, []) :=
  ⟨by simp [c1PlainNode, vnodeWFb, vnodeChildrenWFb],
    by simp [c1PlainNode, noFnAttrsB, noFnChildrenB, attrIsFn],
    by simp [c1PlainNode, vheight, vheightChildren],
    reconcile_self_no_host_ops 2 c1PlainNode "root"
      (by simp [c1PlainNode, vnodeWFb, vnodeChildrenWFb])
      (by simp [c1PlainNode, noFnAttrsB, noFnChildrenB, attrIsFn])
      (by simp [c1PlainNode, vheight, vheightChildren])⟩

/-! ## Child keying in `build` (`src/dist/lite.js` lines 672-696)

The child loop of `build` assigns each (already recursively built)
child a key: the array index stringified, unless the child's
attributes carry a `key` entry, which must be a number or a string and
match `^[\w\d-_]+$`.  Keys are normalized to strings; a key already
present among the accumulated children is a hard error. -/

/-- Errors raised by the child-keying loop. -/
inductive BuildError where
  | invalidKeyType : BuildError
  | invalidKeyChar : BuildError
  | duplicateChildKey (key : String) : BuildError
  deriving DecidableEq, Repr

/-- One character of the key pattern `[\w\d-_]`. -/
def keyCharOk (c : Char) : Bool := c.isAlphanum || c = '-' || c = '_'

/-- `assert(String(key).match(/^[\w\d-_]+$/g), ...)`. -/
def checkKeyChars (s : String) : Except BuildError String :=
  if s.length > 0 && s.toList.all keyCharOk then .ok s else .error .invalidKeyChar

/-- The key a child resolves to at array index `i`: the explicit `key`
attribute when present (validated and stringified), the index
otherwise.  Text nodes have no attributes. -/
def childKeyOf (i : Nat) (child : VNode) : Except BuildError String :=
  match child with
  | VNode.text _ => .ok (toString i)
  | VNode.elem _ attrs _ _ =>
    match jsLookup attrs "key" with
    | none => .ok (toString i)
    | some (Attr.num n) => checkKeyChars (toString n)
    | some (Attr.str s) => checkKeyChars s
    | some _ => .error .invalidKeyType

/-- The child loop of `build`: accumulate `childOrder` and `children`,
failing on the first duplicate key (`assert(!children[key], ...)`). -/
def assignKeysGo : List VNode → Nat → List String → List (String × VNode) →
    Except BuildError (List String × List (String × VNode))
  | [], _, childOrder, children => .ok (childOrder, children)
  | c :: rest, i, childOrder, children =>
    match childKeyOf i c with
    | .error e => .error e
    | .ok k =>
      if (jsLookup children k).isSome then .error (.duplicateChildKey k)
      else assignKeysGo rest (i + 1) (childOrder ++ [k]) (children ++ [(k, c)])

/-- The keying pass over a whole child list. -/
def assignKeys (childList : List VNode) :
    Except BuildError (List String × List (String × VNode)) :=
  assignKeysGo childList 0 [] []

/-- The keys the children resolve to, starting at index `i`. -/
def resolvedFrom (i : Nat) : List VNode → List (Except BuildError String)
  | [] => []
  | c :: rest => childKeyOf i c :: resolvedFrom (i + 1) rest

/-- The keys the children of an element resolve to. -/
def resolvedKeys (childList : List VNode) : List (Except BuildError String) :=
  resolvedFrom 0 childList

/-- The successfully resolved keys, in order. -/
def oksOf (l : List (Except BuildError String)) : List String :=
  l.filterMap (fun r => match r with | .ok k => some k | .error _ => none)

/-- A missing key is absent from the key list. -/
theorem jsLookup_eq_none_iff {β : Type} (m : List (String × β)) (k : String) :
    jsLookup m k = none ↔ k ∉ m.map Prod.fst := by
  induction m with
  | nil => simp [jsLookup]
  | cons en rest ih =>
      obtain ⟨k2, v⟩ := en
      by_cases hk : k = k2
      · subst hk
        simp [jsLookup]
      · rw [jsLookup, if_neg hk, List.map_cons, ih]
        simp [hk]

/-- What the keying loop does when every key resolves: either it
succeeds, returning exactly the accumulated order extended with the
resolved keys and preserving key uniqueness, or it fails on a
duplicate key, and that key genuinely occurs at least twice. -/
theorem assignKeysGo_spec :
    ∀ (rest : List VNode) (i : Nat) (childOrder : List String)
      (children : List (String × VNode)),
      children.map Prod.fst = childOrder →
      (∀ r ∈ resolvedFrom i rest, r.isOk) →
      (∃ order2 ch2, assignKeysGo rest i childOrder children = .ok (order2, ch2) ∧
        order2 = childOrder ++ oksOf (resolvedFrom i rest) ∧
        (childOrder.Nodup → order2.Nodup)) ∨
      (∃ k, assignKeysGo rest i childOrder children = .error (.duplicateChildKey k) ∧
        2 ≤ (childOrder ++ oksOf (resolvedFrom i rest)).count k) := by
  intro rest
  induction rest with
  | nil =>
      intro i childOrder children _ _
      left
      exact ⟨childOrder, children, rfl, by simp [resolvedFrom, oksOf], fun h => h⟩
  | cons c rest ih =>
      intro i childOrder children hkeys hall
      have hok := hall (childKeyOf i c) (by rw [resolvedFrom]; exact List.mem_cons_self _ _)
      obtain ⟨k, hck⟩ : ∃ k, childKeyOf i c = .ok k := by
        cases hc : childKeyOf i c with
        | error e => rw [hc] at hok; simp [Except.isOk, Except.toBool] at hok
        | ok k => exact ⟨k, rfl⟩
      have hoks : oksOf (resolvedFrom i (c :: rest)) =
          k :: oksOf (resolvedFrom (i + 1) rest) := by
        rw [resolvedFrom, oksOf, List.filterMap_cons, hck]
        rfl
      rw [assignKeysGo, hck]
      dsimp only
      by_cases hdup : (jsLookup children k).isSome
      · rw [if_pos hdup]
        right
        refine ⟨k, rfl, ?_⟩
        have hkmem : k ∈ childOrder := by
          rw [← hkeys]
          obtain ⟨v, hv⟩ := Option.isSome_iff_exists.mp hdup
          exact List.mem_map.mpr ⟨(k, v), jsLookup_mem hv, rfl⟩
        rw [hoks, List.count_append, List.count_cons_self]
        have hpos : 0 < childOrder.count k := List.count_pos_iff.mpr hkmem
        omega
      · rw [if_neg hdup]
        have hknot : k ∉ childOrder := by
          rw [← hkeys, ← jsLookup_eq_none_iff]
          rw [Option.not_isSome_iff_eq_none] at hdup
          exact hdup
        have hkeys2 : (children ++ [(k, c)]).map Prod.fst = childOrder ++ [k] := by
          rw [List.map_append, hkeys]
          rfl
        have hall2 : ∀ r ∈ resolvedFrom (i + 1) rest, r.isOk := by
          intro r hr
          exact hall r (by rw [resolvedFrom]; exact List.mem_cons_of_mem _ hr)
        rcases ih (i + 1) (childOrder ++ [k]) (children ++ [(k, c)]) hkeys2 hall2 with
          ⟨order2, ch2, hgo, hord, hnd⟩ | ⟨k2, hgo, hcount⟩
        · left
          refine ⟨order2, ch2, hgo, ?_, ?_⟩
          · rw [hord, hoks, List.append_assoc]
            rfl
          · intro hnd0
            apply hnd
            rw [List.nodup_append]
            refine ⟨hnd0, List.nodup_singleton _, ?_⟩
            intro x hx hx2
            simp at hx2
            subst hx2
            exact hknot hx
        · right
          refine ⟨k2, hgo, ?_⟩
          rw [hoks, List.count_append, List.count_cons]
          rw [List.count_append, List.count_append, List.count_cons] at hcount
          simp at hcount ⊢
          omega

/-- C7: if two children of the same element resolve to the same
normalized key — from explicit `key` attributes or index defaults —
`build` throws a descriptive error carrying the offending key (a key
that indeed occurs at least twice); duplicates are never silently
dropped or renamed. -/
theorem build_duplicate_child_key_errors (childList : List VNode)
    (hall : ∀ r ∈ resolvedKeys childList, r.isOk)
    (hdup : ¬ (oksOf (resolvedKeys childList)).Nodup) :
    ∃ k, assignKeys childList = .error (.duplicateChildKey k) ∧
      2 ≤ (oksOf (resolvedKeys childList)).count k := by
  rcases assignKeysGo_spec childList 0 [] [] rfl hall with
    ⟨order2, ch2, hgo, hord, hnd⟩ | ⟨k, hgo, hcount⟩
  · exfalso
    apply hdup
    have h2 := hnd List.nodup_nil
    rw [hord] at h2
    simpa using h2
  · refine ⟨k, hgo, ?_⟩
    simpa using hcount

/-- A child carrying the explicit key `"a"`. -/
def c7Child : VNode := VNode.elem "li" [("key", Attr.str "a")] [] []

/-- Witness for C7 at a concrete duplicate pair. -/
theorem build_duplicate_child_key_errors_witness :
    (∀ r ∈ resolvedKeys [c7Child, c7Child], r.isOk) ∧
    ¬ (oksOf (resolvedKeys [c7Child, c7Child])).Nodup ∧
    (∃ k, assignKeys [c7Child, c7Child] = .error (.duplicateChildKey k) ∧
      2 ≤ (oksOf (resolvedKeys [c7Child, c7Child])).count k) :=
  ⟨by decide, by decide,
    build_duplicate_child_key_errors [c7Child, c7Child] (by decide) (by decide)⟩
